import Mathlib

/-!
# B-spline interpolation kernel (`splinekernel/src/interpolation.cpp`)

A shallow embedding of the three functions of the interpolation kernel:
`centripetalParameterPositions`, `knotVectorUsingAveraging` and
`interpolateWithBSplineCurve`.

Modelling conventions.

* `double` values are elements of a field `K` (exact arithmetic).  A value that
  a division by zero produced (a NaN or an infinity) is the extra element
  `Dbl.nonFinite`; it is absorbing for the additions the code performs on it.
  The coordinates handed to the kernel are finite, hence of type `K`.
  Properties stated over `K` are properties of the code in exact arithmetic.
* The rounded arithmetic of the machine is the type `Binary64` (IEEE 754
  binary64, rounding to nearest, ties to even).  The estimator
  `centripetalParameterPositions` is embedded a second time with the arithmetic
  as a parameter (`centripetalParameterPositionsIn`); with the exact arithmetic
  it is the first embedding (`centripetalIn_exact`), with `binary64` it is the
  code as the machine runs it.
* `size_t` values are natural numbers below `2 ^ 64`; every `+` and `-` of the
  source on sizes is taken modulo `2 ^ 64`.
* An access to a `std::vector` beyond its size is undefined behaviour in the
  source; the embedding makes it the failure `Failure.outOfRange`.
* `sqrt` (from `<cmath>`), the basis evaluator `evaluateBSplineBasis`
  (`basisfunctions.hpp`) and the solver `linalg::solve` (`linalg.hpp`) are not
  part of the translation unit; they are parameters of the functions using them.
  What they throw is not caught by the kernel and leaves it unchanged.
-/

namespace SplineKernel

/-! ## Machine sizes -/

/-- Number of values of the type `size_t`. -/
def SIZE_MOD : Nat := 2 ^ 64

/-- Addition of two `size_t` values. -/
def sizeAdd (a b : Nat) : Nat := (a + b) % SIZE_MOD

/-- Subtraction of two `size_t` values (wraps around below zero). -/
def sizeSub (a b : Nat) : Nat := (a % SIZE_MOD + SIZE_MOD - b % SIZE_MOD) % SIZE_MOD

/-! ## Doubles -/

/-- A `double` in exact arithmetic: a finite number of `K`, or the result of a
division by zero (NaN or an infinity). -/
inductive Dbl (K : Type) where
  | finite (x : K)
  | nonFinite
  deriving DecidableEq, Repr

namespace Dbl

variable {K : Type}

/-- Sum of two doubles; a non-finite operand gives a non-finite sum. -/
def add [Add K] : Dbl K → Dbl K → Dbl K
  | finite a, finite b => finite (a + b)
  | _, _ => nonFinite

/-- Product of two doubles, with the same convention as `add`. -/
def mul [Mul K] : Dbl K → Dbl K → Dbl K
  | finite a, finite b => finite (a * b)
  | _, _ => nonFinite

/-- Quotient of a double by a finite divisor: dividing by zero, or dividing a
non-finite value, gives a non-finite value. -/
def div [Div K] [Zero K] [DecidableEq K] : Dbl K → K → Dbl K
  | finite a, b => if b = 0 then nonFinite else finite (a / b)
  | nonFinite, _ => nonFinite

end Dbl

/-! ## Data model -/

/-- Modelled from the spec: the type `ControlPoints2D` is declared in
`interpolation.hpp`, which is not part of the sources.  A point sequence is an
ordered pair of coordinate sequences; `x` is `[0]` and `y` is `[1]`. -/
structure ControlPoints2D (α : Type) where
  x : List α
  y : List α
  deriving DecidableEq, Repr

/-- Ways in which a call can end without a result. -/
inductive Failure (K : Type) where
  /-- The statement `throw interpolationPoints`. -/
  | thrownPoints (interpolationPoints : ControlPoints2D K)
  /-- A `std::runtime_error` with its message. -/
  | runtime_error (what : String)
  /-- An access to a vector beyond its size. -/
  | outOfRange
  /-- An exception of any other type, with its message. -/
  | otherException (what : String)
  deriving DecidableEq, Repr

section Kernel

variable {K : Type}

/-- Read access `v[i]`. -/
def load {α : Type} (v : List α) (i : Nat) : Except (Failure K) α :=
  match v[i]? with
  | some a => .ok a
  | none => .error .outOfRange

/-- Write access `v[i] = a`. -/
def store {α : Type} (v : List α) (i : Nat) (a : α) : Except (Failure K) (List α) :=
  if i < v.length then .ok (v.set i a) else .error .outOfRange

/-- Runs `body i` for `count` consecutive values of `i`, starting at `i`, and
stops at the first failure. -/
def loopFrom {σ ε : Type} (body : Nat → σ → Except ε σ) : Nat → Nat → σ → Except ε σ
  | 0, _, s => .ok s
  | count + 1, i, s =>
    match body i s with
    | .error e => .error e
    | .ok s' => loopFrom body count (i + 1) s'

/-- The loop `for (size_t i = lo; i < hi; ++i) body`. -/
def forLoop {σ ε : Type} (lo hi : Nat) (body : Nat → σ → Except ε σ) (s : σ) : Except ε σ :=
  loopFrom body (hi - lo) lo s

/-- The library function `std::to_string` on a `size_t`: the number in decimal. -/
def to_string (n : Nat) : String := Nat.repr n

/-- The function `centripetalParameterPositions` (lines 53-80). -/
def centripetalParameterPositions [Field K] [DecidableEq K] (sqrt : K → K)
    (interpolationPoints : ControlPoints2D K) : Except (Failure K) (List (Dbl K)) := do
  let numberOfPoints := interpolationPoints.x.length
  let t : List (Dbl K) := List.replicate numberOfPoints (Dbl.finite 0)
  let t ← store t 0 (Dbl.finite 0)
  let t ← store t (sizeSub numberOfPoints 1) (Dbl.finite 1)
  let d : List K := List.replicate (sizeSub numberOfPoints 1) 0
  let d_sum : K := 0
  let (d, d_sum) ← forLoop 0 (sizeSub numberOfPoints 1)
    (fun i (s : List K × K) => do
      let x1 ← load interpolationPoints.x (sizeAdd i 1)
      let x0 ← load interpolationPoints.x i
      let y1 ← load interpolationPoints.y (sizeAdd i 1)
      let y0 ← load interpolationPoints.y i
      let d ← store s.1 i (sqrt ((x1 - x0) ^ 2 + (y1 - y0) ^ 2))
      let di ← load d i
      pure (d, s.2 + sqrt di))
    (d, d_sum)
  let t ← forLoop 0 (sizeSub numberOfPoints 1)
    (fun i (t : List (Dbl K)) => do
      let ti ← load t i
      let di ← load d i
      store t (sizeAdd i 1) (Dbl.add ti (Dbl.div (Dbl.finite (sqrt di)) d_sum)))
    t
  pure t

/-- The function `knotVectorUsingAveraging` (lines 85-109). -/
def knotVectorUsingAveraging [Field K] [DecidableEq K]
    (parameterPositions : List (Dbl K)) (polynomialDegree : Nat) :
    Except (Failure K) (List (Dbl K)) :=
  let numberOfPoints := parameterPositions.length
  let numberOfKnots := sizeAdd (sizeAdd numberOfPoints polynomialDegree) 1
  let numberOfInnerKnots := sizeSub (sizeSub numberOfPoints polynomialDegree) 1
  if polynomialDegree > sizeSub numberOfPoints 1 then
    .error (.runtime_error ("Polynomial degree " ++ to_string polynomialDegree ++
      " is too high for " ++ to_string parameterPositions.length ++ " interpolation points."))
  else do
    let knotVector : List (Dbl K) := List.replicate numberOfKnots (Dbl.finite 0)
    let knotVector ← forLoop 0 numberOfInnerKnots
      (fun i (knotVector : List (Dbl K)) => do
        let sum ← forLoop 1 (sizeAdd polynomialDegree 1)
          (fun j (sum : Dbl K) => do
            let v ← load parameterPositions (sizeAdd i j)
            pure (Dbl.add sum v))
          (Dbl.finite 0)
        store knotVector (sizeAdd (sizeAdd i polynomialDegree) 1)
          (Dbl.div sum (polynomialDegree : K)))
      knotVector
    let knotVector ← forLoop 0 (sizeAdd polynomialDegree 1)
      (fun i (knotVector : List (Dbl K)) =>
        store knotVector
          (sizeAdd (sizeAdd (sizeAdd numberOfInnerKnots polynomialDegree) 1) i) (Dbl.finite 1))
      knotVector
    pure knotVector

/-- Modelled from the spec: `linalg::Matrix` is declared in `linalg.hpp`, which
is not part of the sources.  A matrix is the list of its rows. -/
abbrev Matrix (K : Type) := List (List (Dbl K))

/-- The constructor `linalg::Matrix(rows, columns, value)`. -/
def Matrix.filled (rows columns : Nat) (value : Dbl K) : Matrix K :=
  List.replicate rows (List.replicate columns value)

/-- The assignment `N(k, i) = a`. -/
def Matrix.assign (N : Matrix K) (k i : Nat) (a : Dbl K) : Except (Failure K) (Matrix K) := do
  let row ← load N k
  let row ← store row i a
  store N k row

/-- The function `interpolateWithBSplineCurve` (lines 14-48).  The calls of
`linalg::solve` are not enclosed in a `try` block: what the solver throws leaves
the function unchanged. -/
def interpolateWithBSplineCurve [Field K] [DecidableEq K] (sqrt : K → K)
    (evaluateBSplineBasis : Dbl K → Nat → Nat → List (Dbl K) → Dbl K)
    (solve : Matrix K → List K → Except (Failure K) (List (Dbl K)))
    (interpolationPoints : ControlPoints2D K) (polynomialDegree : Nat) :
    Except (Failure K) (ControlPoints2D (Dbl K) × List (Dbl K)) :=
  let numberOfPoints := interpolationPoints.x.length
  if interpolationPoints.x.length ≠ interpolationPoints.y.length then
    .error (.thrownPoints interpolationPoints)
  else do
    let t ← centripetalParameterPositions sqrt interpolationPoints
    let knotVector ← knotVectorUsingAveraging t polynomialDegree
    let N : Matrix K := Matrix.filled numberOfPoints numberOfPoints (Dbl.finite 0)
    let N ← forLoop 0 numberOfPoints
      (fun k (N : Matrix K) =>
        forLoop 0 numberOfPoints
          (fun i (N : Matrix K) => do
            let tk ← load t k
            Matrix.assign N k i (evaluateBSplineBasis tk i polynomialDegree knotVector))
          N)
      N
    match solve N interpolationPoints.x with
    | .error e => .error e
    | .ok controlPointsX =>
      match solve N interpolationPoints.y with
      | .error e => .error e
      | .ok controlPointsY =>
        pure (⟨controlPointsX, controlPointsY⟩, knotVector)

/-- The assembly of the matrix of shape functions (lines 30-39 of
`interpolateWithBSplineCurve`), as a function of its own. -/
def assembleCollocation [Zero K]
    (evaluateBSplineBasis : Dbl K → Nat → Nat → List (Dbl K) → Dbl K)
    (t : List (Dbl K)) (polynomialDegree : Nat) (knotVector : List (Dbl K))
    (numberOfPoints : Nat) : Except (Failure K) (Matrix K) :=
  forLoop 0 numberOfPoints
    (fun k (N : Matrix K) =>
      forLoop 0 numberOfPoints
        (fun i (N : Matrix K) => do
          let tk ← load t k
          Matrix.assign N k i (evaluateBSplineBasis tk i polynomialDegree knotVector))
        N)
    (Matrix.filled numberOfPoints numberOfPoints (Dbl.finite 0))

end Kernel

/-! ## Quantities named by the specification

Closed forms of the values the loops compute; the theorems below relate the
functions above to them. -/

section Quantities

variable {K : Type} [Field K]

/-- The chord length `d[i]` between the points `i` and `i + 1`. -/
def chordLength (sqrt : K → K) (points : ControlPoints2D K) (i : Nat) : K :=
  sqrt ((points.x.getD (i + 1) 0 - points.x.getD i 0) ^ 2 +
    (points.y.getD (i + 1) 0 - points.y.getD i 0) ^ 2)

/-- The weight `sqrt(d[i])` of the chord `i`. -/
def chordWeight (sqrt : K → K) (points : ControlPoints2D K) (i : Nat) : K :=
  sqrt (chordLength sqrt points i)

/-- The sum of the weights of the first `m` chords. -/
def chordWeightSum (sqrt : K → K) (points : ControlPoints2D K) (m : Nat) : K :=
  Finset.sum (Finset.range m) (fun j => chordWeight sqrt points j)

/-- The recurrence `t[0] = 0`, `t[i+1] = t[i] + sqrt(d[i]) / S`, where `S` is the
sum of all chord weights. -/
def parameterAt [DecidableEq K] (sqrt : K → K) (points : ControlPoints2D K) : Nat → Dbl K
  | 0 => Dbl.finite 0
  | i + 1 => Dbl.add (parameterAt sqrt points i)
      (Dbl.div (Dbl.finite (chordWeight sqrt points i))
        (chordWeightSum sqrt points (points.x.length - 1)))

/-- The point `i` of a point sequence. -/
def pointAt (points : ControlPoints2D K) (i : Nat) : K × K :=
  (points.x.getD i 0, points.y.getD i 0)

/-- All points of the sequence are equal to one another. -/
def AllCoincident (points : ControlPoints2D K) : Prop :=
  ∀ i j, i < points.x.length → j < points.x.length → pointAt points i = pointAt points j

/-- The value of `sum` after the inner loop has added `m` parameters to it:
`parameterPositions[i+1] + ... + parameterPositions[i+m]`, added in this order
to the initial value 0. -/
def parameterSum {K : Type} [Add K] [Zero K] (parameterPositions : List (Dbl K)) (i : Nat) :
    Nat → Dbl K
  | 0 => Dbl.finite 0
  | m + 1 => Dbl.add (parameterSum parameterPositions i m)
      (parameterPositions.getD (i + (m + 1)) Dbl.nonFinite)

/-- The knot `j` of the averaging technique for the degree `p`: 0 up to the
index `p`, 1 from the index `n` on (`n` the number of parameters), and in
between the sum of `p` consecutive parameters divided by `p`. -/
def knotAt [DecidableEq K] (parameterPositions : List (Dbl K)) (p j : Nat) : Dbl K :=
  if j ≤ p then Dbl.finite 0
  else if j < parameterPositions.length then
    Dbl.div (parameterSum parameterPositions (j - p - 1) p) (p : K)
  else Dbl.finite 1

/-- The knot `j` computed from finite parameters `T`, as a number: the closed
form of `knotAt` when no value is non-finite and the degree is not 0. -/
def knotValue (T : List K) (p j : Nat) : K :=
  if j ≤ p then 0
  else if j < T.length then
    (Finset.sum (Finset.range p) (fun m => T.getD (j - p - 1 + (m + 1)) 0)) / (p : K)
  else 1

/-- The entry `N(k, i)` of a matrix (non-finite outside the matrix). -/
def Matrix.entry {K : Type} (N : Matrix K) (k i : Nat) : Dbl K :=
  (N.getD k []).getD i Dbl.nonFinite

/-- The sum `f 0 + f 1 + ... + f (n - 1)` of doubles, added from left to right
to the initial value 0. -/
def dblSum {K : Type} [Add K] [Zero K] (n : Nat) (f : Nat → Dbl K) : Dbl K :=
  (List.range n).foldl (fun acc i => Dbl.add acc (f i)) (Dbl.finite 0)

/-- The contract of the linear solver in exact arithmetic: a successful result
`c` of `solve A b` satisfies `A · c = b`, row by row, for the system of size
`b.length`. -/
def SolvesExactly (solve : Matrix K → List K → Except (Failure K) (List (Dbl K))) : Prop :=
  ∀ A b c, solve A b = .ok c → ∀ k, k < b.length →
    dblSum b.length (fun i => Dbl.mul (Matrix.entry A k i) (c.getD i Dbl.nonFinite))
      = Dbl.finite (b.getD k 0)

/-! ### Collaborators used in the instances -/

/-- A basis evaluator used in instances: the two basis functions of degree 1 on
the knots 0, 0, 1, 1, which are `1 - t` and `t`. -/
def linearBasis (t : Dbl K) (i : Nat) (_p : Nat) (_knotVector : List (Dbl K)) : Dbl K :=
  match t with
  | Dbl.finite x => if i = 0 then Dbl.finite (1 - x) else Dbl.finite x
  | Dbl.nonFinite => Dbl.nonFinite

/-- A solver used in instances: it solves the systems whose matrix is the
identity of size 2 and fails on every other system. -/
def identitySolve [DecidableEq K] (A : Matrix K) (b : List K) : Except (Failure K) (List (Dbl K)) :=
  if A = [[Dbl.finite 1, Dbl.finite 0], [Dbl.finite 0, Dbl.finite 1]] ∧ b.length = 2 then
    .ok (b.map Dbl.finite)
  else .error (.runtime_error "unsupported system")

/-- The matrix with the entry `evaluate(t[k], i, p, U)` in row `k` and column
`i`, of size `n × n`. -/
def collocationMatrix {K : Type}
    (evaluateBSplineBasis : Dbl K → Nat → Nat → List (Dbl K) → Dbl K)
    (t : List (Dbl K)) (p : Nat) (U : List (Dbl K)) (n : Nat) : Matrix K :=
  (List.range n).map (fun k =>
    (List.range n).map (fun i => evaluateBSplineBasis (t.getD k Dbl.nonFinite) i p U))

end Quantities

section Collaborators

variable {K : Type}

/-- The half-open convention for the basis functions of degree 0: the value at
`x` of the function `i` on the knots `U` is 1 when `U[i] ≤ x < U[i+1]` and 0
otherwise. -/
def HalfOpenDegreeZero [LinearOrderedField K]
    (evaluateBSplineBasis : Dbl K → Nat → Nat → List (Dbl K) → Dbl K) : Prop :=
  ∀ (x a b : K) (i : Nat) (U : List (Dbl K)),
    U[i]? = some (Dbl.finite a) → U[i + 1]? = some (Dbl.finite b) →
    evaluateBSplineBasis (Dbl.finite x) i 0 U
      = if a ≤ x ∧ x < b then Dbl.finite 1 else Dbl.finite 0

/-- The contract of a solver on nonsingular systems of size 1: the solution of
`a · c = b` with `a ≠ 0` is `c = b / a`. -/
def SolvesScalar [Field K]
    (solve : Matrix K → List K → Except (Failure K) (List (Dbl K))) : Prop :=
  ∀ a b : K, a ≠ 0 → solve [[Dbl.finite a]] [b] = .ok [Dbl.finite (b / a)]

/-- A basis evaluator used in instances: the functions of degree 0 in the
half-open convention. -/
def halfOpenBasis [LinearOrderedField K] (t : Dbl K) (i : Nat) (_p : Nat)
    (knotVector : List (Dbl K)) : Dbl K :=
  match t, knotVector[i]?, knotVector[i + 1]? with
  | Dbl.finite x, some (Dbl.finite a), some (Dbl.finite b) =>
    if a ≤ x ∧ x < b then Dbl.finite 1 else Dbl.finite 0
  | _, _, _ => Dbl.nonFinite

/-- A solver used in instances: it solves the systems of size 1 and reports a
singular matrix when the only entry is 0. -/
def scalarSolve [Field K] [DecidableEq K] (A : Matrix K) (b : List K) :
    Except (Failure K) (List (Dbl K)) :=
  match A, b with
  | [[Dbl.finite a]], [b0] =>
    if a = 0 then .error (.runtime_error "singular matrix") else .ok [Dbl.finite (b0 / a)]
  | _, _ => .error (.runtime_error "unsupported system")

end Collaborators

/-! ## The estimator over the arithmetic of the machine

The functions above compute with exact numbers.  Here the operations on
`double` are a parameter of `centripetalParameterPositions`, so that the same
code can be run with exact arithmetic and with the rounded arithmetic of
IEEE 754 binary64 numbers. -/

/-- The operations on `double` values that `centripetalParameterPositions`
uses: the constants 0 and 1, `+`, `-`, `/`, `pow(x, 2)` and `sqrt`. -/
structure Arithmetic (D : Type) where
  zero : D
  one : D
  add : D → D → D
  sub : D → D → D
  div : D → D → D
  square : D → D
  sqrt : D → D

/-- The function `centripetalParameterPositions` (lines 53-80), with the
arithmetic of `double` values as a parameter. -/
def centripetalParameterPositionsIn {D : Type} (A : Arithmetic D)
    (interpolationPoints : ControlPoints2D D) : Except (Failure D) (List D) := do
  let numberOfPoints := interpolationPoints.x.length
  let t : List D := List.replicate numberOfPoints A.zero
  let t ← store t 0 A.zero
  let t ← store t (sizeSub numberOfPoints 1) A.one
  let d : List D := List.replicate (sizeSub numberOfPoints 1) A.zero
  let d_sum : D := A.zero
  let (d, d_sum) ← forLoop 0 (sizeSub numberOfPoints 1)
    (fun i (s : List D × D) => do
      let x1 ← load interpolationPoints.x (sizeAdd i 1)
      let x0 ← load interpolationPoints.x i
      let y1 ← load interpolationPoints.y (sizeAdd i 1)
      let y0 ← load interpolationPoints.y i
      let d ← store s.1 i (A.sqrt (A.add (A.square (A.sub x1 x0)) (A.square (A.sub y1 y0))))
      let di ← load d i
      pure (d, A.add s.2 (A.sqrt di)))
    (d, d_sum)
  let t ← forLoop 0 (sizeSub numberOfPoints 1)
    (fun i (t : List D) => do
      let ti ← load t i
      let di ← load d i
      store t (sizeAdd i 1) (A.add ti (A.div (A.sqrt di) d_sum)))
    t
  pure t

/-- The exact arithmetic of the functions above, as an `Arithmetic`: the
operations of a field, with `Dbl.nonFinite` for the result of a division by
zero. -/
def exactArithmetic {K : Type} [Field K] [DecidableEq K] (sqrt : K → K) :
    Arithmetic (Dbl K) where
  zero := Dbl.finite 0
  one := Dbl.finite 1
  add := Dbl.add
  sub := fun a b =>
    match a, b with
    | Dbl.finite a, Dbl.finite b => Dbl.finite (a - b)
    | _, _ => Dbl.nonFinite
  div := fun a b =>
    match b with
    | Dbl.finite b => Dbl.div a b
    | Dbl.nonFinite => Dbl.nonFinite
  square := fun a =>
    match a with
    | Dbl.finite a => Dbl.finite (a ^ 2)
    | Dbl.nonFinite => Dbl.nonFinite
  sqrt := fun a =>
    match a with
    | Dbl.finite a => Dbl.finite (sqrt a)
    | Dbl.nonFinite => Dbl.nonFinite

/-- A binary64 value of IEEE 754: a finite number (a rational; the sign of zero
is not kept), an infinity, or a NaN. -/
inductive Binary64 where
  | finite (q : ℚ)
  | posInf
  | negInf
  | nan
  deriving DecidableEq, Repr

namespace Binary64

/-- The exponent `e` such that the binary64 numbers of the magnitude of `q` are
the multiples of `2 ^ e`: 52 below the exponent of `q`, and never below -1074
(subnormal numbers). -/
def ulpExponent (q : ℚ) : Int := max (Int.log 2 |q| - 52) (-1074)

/-- The integer nearest to `q`; of two nearest integers, the even one. -/
def roundHalfEven (q : ℚ) : Int :=
  if q - ⌊q⌋ < 1 / 2 then ⌊q⌋
  else if 1 / 2 < q - ⌊q⌋ then ⌊q⌋ + 1
  else if ⌊q⌋ % 2 = 0 then ⌊q⌋ else ⌊q⌋ + 1

/-- Rounding to nearest, ties to even, of the exact result `q` of an operation:
the nearest multiple of `2 ^ ulpExponent q`, or an infinity when that multiple
is not below `2 ^ 1024` in magnitude. -/
def roundNearest (q : ℚ) : Binary64 :=
  let r : ℚ := roundHalfEven (q / 2 ^ ulpExponent q) * 2 ^ ulpExponent q
  if 2 ^ 1024 ≤ r then posInf
  else if r ≤ -2 ^ 1024 then negInf
  else finite r

/-- The operation `-x`. -/
def neg : Binary64 → Binary64
  | finite q => finite (-q)
  | posInf => negInf
  | negInf => posInf
  | nan => nan

/-- The operation `x + y`. -/
def add : Binary64 → Binary64 → Binary64
  | finite a, finite b => roundNearest (a + b)
  | finite _, posInf => posInf
  | finite _, negInf => negInf
  | posInf, finite _ => posInf
  | negInf, finite _ => negInf
  | posInf, posInf => posInf
  | negInf, negInf => negInf
  | _, _ => nan

/-- The operation `x - y`. -/
def sub (a b : Binary64) : Binary64 := add a (neg b)

/-- The call `pow(x, 2)`: the rounded square. -/
def square : Binary64 → Binary64
  | finite a => roundNearest (a * a)
  | posInf => posInf
  | negInf => posInf
  | nan => nan

/-- The operation `x / y`.  A zero divisor is taken as `+0`, which is the only
zero that the divisors of the kernel can be. -/
def div : Binary64 → Binary64 → Binary64
  | finite a, finite b =>
    if b = 0 then (if a = 0 then nan else if 0 < a then posInf else negInf)
    else roundNearest (a / b)
  | finite _, posInf => finite 0
  | finite _, negInf => finite 0
  | posInf, finite b => if 0 ≤ b then posInf else negInf
  | negInf, finite b => if 0 ≤ b then negInf else posInf
  | _, _ => nan

/-- The binary64 number nearest to the square root of `q ≥ 0` (ties to even):
with `s = q / 4 ^ e`, the integer nearest to the square root of `s` is found
from the integer square root `m` of `s` by comparing `s` with `(m + 1/2) ^ 2`. -/
def roundSqrt (q : ℚ) : ℚ :=
  let e : Int := max (Int.log 2 q / 2 - 52) (-1074)
  let s : ℚ := q / 4 ^ e
  let m : Nat := Nat.sqrt ⌊s⌋₊
  let h : ℚ := (m + 1 / 2) ^ 2
  let r : Nat := if s < h then m else if h < s then m + 1 else if m % 2 = 0 then m else m + 1
  r * 2 ^ e

/-- The call `sqrt(x)`. -/
def sqrt : Binary64 → Binary64
  | finite q => if q < 0 then nan else finite (roundSqrt q)
  | posInf => posInf
  | negInf => nan
  | nan => nan

end Binary64

/-- The arithmetic of IEEE 754 binary64 numbers, rounding to nearest. -/
def binary64 : Arithmetic Binary64 where
  zero := Binary64.finite 0
  one := Binary64.finite 1
  add := Binary64.add
  sub := Binary64.sub
  div := Binary64.div
  square := Binary64.square
  sqrt := Binary64.sqrt

section ClosedForms

variable {D : Type}

/-- The chord length `d[i]` as the estimator computes it in the arithmetic `A`. -/
def chordLengthIn (A : Arithmetic D) (points : ControlPoints2D D) (i : Nat) : D :=
  A.sqrt (A.add
    (A.square (A.sub (points.x.getD (i + 1) A.zero) (points.x.getD i A.zero)))
    (A.square (A.sub (points.y.getD (i + 1) A.zero) (points.y.getD i A.zero))))

/-- The value of `d_sum` after `m` rounds of the first loop. -/
def chordWeightSumIn (A : Arithmetic D) (points : ControlPoints2D D) : Nat → D
  | 0 => A.zero
  | m + 1 => A.add (chordWeightSumIn A points m) (A.sqrt (chordLengthIn A points m))

/-- The recurrence `t[0] = 0`, `t[i+1] = t[i] + sqrt(d[i]) / d_sum` in the
arithmetic `A`. -/
def parameterAtIn (A : Arithmetic D) (points : ControlPoints2D D) : Nat → D
  | 0 => A.zero
  | i + 1 => A.add (parameterAtIn A points i)
      (A.div (A.sqrt (chordLengthIn A points i))
        (chordWeightSumIn A points (points.x.length - 1)))

end ClosedForms

/-! ## Auxiliary lemmas -/

section Proofs

variable {K : Type}

theorem load_of_getElem? {α : Type} {v : List α} {i : Nat} {a : α} (h : v[i]? = some a) :
    (load v i : Except (Failure K) α) = .ok a := by
  simp [load, h]

theorem store_of_lt {α : Type} {v : List α} {i : Nat} (a : α) (h : i < v.length) :
    (store v i a : Except (Failure K) (List α)) = .ok (v.set i a) := by
  simp [store, h]

theorem sizeAdd_of_lt {a b : Nat} (h : a + b < 2 ^ 64) : sizeAdd a b = a + b := by
  simp only [sizeAdd, SIZE_MOD]; exact Nat.mod_eq_of_lt h

theorem sizeSub_of_le {a b : Nat} (hb : b ≤ a) (ha : a < 2 ^ 64) : sizeSub a b = a - b := by
  simp only [sizeSub, SIZE_MOD]; omega

theorem loopFrom_invariant {σ ε : Type} (body : Nat → σ → Except ε σ) (Inv : Nat → σ → Prop) :
    ∀ (count lo : Nat) (s : σ),
      (∀ i s, lo ≤ i → i < lo + count → Inv i s → ∃ s', body i s = .ok s' ∧ Inv (i + 1) s') →
      Inv lo s → ∃ s', loopFrom body count lo s = .ok s' ∧ Inv (lo + count) s' := by
  intro count
  induction count with
  | zero => intro lo s _ h0; exact ⟨s, rfl, by simpa using h0⟩
  | succ c ih =>
    intro lo s step h0
    obtain ⟨s1, hb, h1⟩ := step lo s (Nat.le_refl _) (by omega) h0
    obtain ⟨s2, hl, h2⟩ := ih (lo + 1) s1
      (fun i s hi hlt hinv => step i s (by omega) (by omega) hinv) h1
    refine ⟨s2, ?_, ?_⟩
    · simp only [loopFrom, hb]; exact hl
    · have : lo + (c + 1) = lo + 1 + c := by omega
      rw [this]; exact h2

theorem forLoop_invariant {σ ε : Type} (body : Nat → σ → Except ε σ) (Inv : Nat → σ → Prop)
    (lo hi : Nat) (hle : lo ≤ hi) (s : σ)
    (step : ∀ i s, lo ≤ i → i < hi → Inv i s → ∃ s', body i s = .ok s' ∧ Inv (i + 1) s')
    (h0 : Inv lo s) : ∃ s', forLoop lo hi body s = .ok s' ∧ Inv hi s' := by
  obtain ⟨s1, h1, h2⟩ := loopFrom_invariant body Inv (hi - lo) lo s
    (fun i s hi1 hi2 hinv => step i s hi1 (by omega) hinv) h0
  refine ⟨s1, h1, ?_⟩
  have : lo + (hi - lo) = hi := by omega
  rw [this] at h2; exact h2


theorem centripetal_first_loop [Field K] (sqrt : K → K) (points : ControlPoints2D K)
    (n : Nat) (hx : points.x.length = n) (hy : points.y.length = n) (hn : 1 ≤ n)
    (hsz : n < 2 ^ 64) :
    ∃ d : List K,
      forLoop 0 (n - 1)
        (fun i (s : List K × K) =>
          (do
            let x1 ← load points.x (sizeAdd i 1)
            let x0 ← load points.x i
            let y1 ← load points.y (sizeAdd i 1)
            let y0 ← load points.y i
            let d ← store s.1 i (sqrt ((x1 - x0) ^ 2 + (y1 - y0) ^ 2))
            let di ← load d i
            pure (d, s.2 + sqrt di) : Except (Failure K) (List K × K)))
        (List.replicate (n - 1) 0, 0)
        = .ok (d, chordWeightSum sqrt points (n - 1)) ∧
      d.length = n - 1 ∧ ∀ k, k < n - 1 → d[k]? = some (chordLength sqrt points k) := by
  obtain ⟨s, hs, hlen, hd, hsum⟩ := forLoop_invariant
    (fun i (s : List K × K) =>
          (do
            let x1 ← load points.x (sizeAdd i 1)
            let x0 ← load points.x i
            let y1 ← load points.y (sizeAdd i 1)
            let y0 ← load points.y i
            let d ← store s.1 i (sqrt ((x1 - x0) ^ 2 + (y1 - y0) ^ 2))
            let di ← load d i
            pure (d, s.2 + sqrt di) : Except (Failure K) (List K × K)))
    (fun i s => s.1.length = n - 1 ∧ (∀ k, k < i → s.1[k]? = some (chordLength sqrt points k)) ∧
      s.2 = chordWeightSum sqrt points i)
    0 (n - 1) (Nat.zero_le _) (List.replicate (n - 1) 0, 0)
    (by
      rintro i ⟨d, s⟩ - hi ⟨hlen, hd, hsum⟩
      simp only at hlen hd hsum
      have e1 : sizeAdd i 1 = i + 1 := sizeAdd_of_lt (by omega)
      have hx1 : points.x[i + 1]? = some (points.x.getD (i + 1) 0) := by
        rw [List.getD_eq_getElem?_getD, List.getElem?_eq_getElem (by omega)]; rfl
      have hx0 : points.x[i]? = some (points.x.getD i 0) := by
        rw [List.getD_eq_getElem?_getD, List.getElem?_eq_getElem (by omega)]; rfl
      have hy1 : points.y[i + 1]? = some (points.y.getD (i + 1) 0) := by
        rw [List.getD_eq_getElem?_getD, List.getElem?_eq_getElem (by omega)]; rfl
      have hy0 : points.y[i]? = some (points.y.getD i 0) := by
        rw [List.getD_eq_getElem?_getD, List.getElem?_eq_getElem (by omega)]; rfl
      refine ⟨(d.set i (chordLength sqrt points i), s + chordWeight sqrt points i), ?_, ?_, ?_, ?_⟩
      · simp only [e1, load_of_getElem? hx1, load_of_getElem? hx0, load_of_getElem? hy1,
          load_of_getElem? hy0, bind, Except.bind, pure, Except.pure]
        rw [store_of_lt _ (by omega)]
        simp only []
        rw [load_of_getElem? (List.getElem?_set_self (by omega))]
        rfl
      · simpa using hlen
      · intro k hk
        simp only
        by_cases hki : k = i
        · subst hki; exact List.getElem?_set_self (by omega)
        · rw [List.getElem?_set_ne (by omega)]; exact hd k (by omega)
      · simp only [hsum, chordWeightSum, Finset.sum_range_succ])
    ⟨by simp, by intro k hk; omega, by simp [chordWeightSum]⟩
  refine ⟨s.1, ?_, hlen, hd⟩
  rw [hs, ← hsum]

theorem centripetal_second_loop [Field K] [DecidableEq K] (sqrt : K → K)
    (points : ControlPoints2D K) (n : Nat) (hn : 2 ≤ n)
    (hsz : n < 2 ^ 64) (d : List K) (S : K)
    (hS : S = chordWeightSum sqrt points (points.x.length - 1))
    (hd : ∀ k, k < n - 1 → d[k]? = some (chordLength sqrt points k)) :
    forLoop 0 (n - 1)
      (fun i (t : List (Dbl K)) =>
        (do
          let ti ← load t i
          let di ← load d i
          store t (sizeAdd i 1) (Dbl.add ti (Dbl.div (Dbl.finite (sqrt di)) S)) :
          Except (Failure K) (List (Dbl K))))
      (((List.replicate n (Dbl.finite 0)).set 0 (Dbl.finite 0)).set (n - 1) (Dbl.finite 1))
      = .ok ((List.range n).map (parameterAt sqrt points)) := by
  obtain ⟨t, ht, hlen, hpar⟩ := forLoop_invariant
    (fun i (t : List (Dbl K)) =>
        (do
          let ti ← load t i
          let di ← load d i
          store t (sizeAdd i 1) (Dbl.add ti (Dbl.div (Dbl.finite (sqrt di)) S)) :
          Except (Failure K) (List (Dbl K))))
    (fun i t => t.length = n ∧ ∀ k, k ≤ i → t[k]? = some (parameterAt sqrt points k))
    0 (n - 1) (Nat.zero_le _)
    (((List.replicate n (Dbl.finite 0)).set 0 (Dbl.finite 0)).set (n - 1) (Dbl.finite 1))
    (by
      rintro i t - hi ⟨hlen, hpar⟩
      have e1 : sizeAdd i 1 = i + 1 := sizeAdd_of_lt (by omega)
      refine ⟨t.set (i + 1) (parameterAt sqrt points (i + 1)), ?_, ?_, ?_⟩
      · simp only [e1, load_of_getElem? (hpar i (Nat.le_refl _)), load_of_getElem? (hd i hi),
          bind, Except.bind]
        rw [store_of_lt _ (by omega)]
        simp only [parameterAt, chordWeight, hS]
      · simpa using hlen
      · intro k hk
        by_cases hki : k = i + 1
        · subst hki; exact List.getElem?_set_self (by omega)
        · rw [List.getElem?_set_ne (by omega)]; exact hpar k (by omega))
    ⟨by simp, by
      intro k hk
      have hk0 : k = 0 := by omega
      subst hk0
      rw [List.getElem?_set_ne (by omega), List.getElem?_set_self (by simp; omega)]
      rfl⟩
  rw [ht]
  congr 1
  apply List.ext_getElem?
  intro k
  by_cases hk : k < n
  · rw [hpar k (by omega)]
    simp [List.getElem?_map, List.getElem?_range hk]
  · rw [List.getElem?_eq_none (by omega), List.getElem?_eq_none (by simp; omega)]

theorem bind_ok {ε α β : Type} (a : α) (f : α → Except ε β) :
    (Except.ok a : Except ε α).bind f = f a := rfl

/-- For at least two points with coordinate sequences of equal length, the
estimator returns the values of the recurrence `parameterAt`. -/
theorem centripetal_eq [Field K] [DecidableEq K] (sqrt : K → K)
    (points : ControlPoints2D K) (n : Nat) (hx : points.x.length = n)
    (hy : points.y.length = n) (hn : 2 ≤ n) (hsz : n < 2 ^ 64) :
    centripetalParameterPositions sqrt points
      = .ok ((List.range n).map (parameterAt sqrt points)) := by
  obtain ⟨d, h1, -, hd⟩ := centripetal_first_loop sqrt points n hx hy (by omega) hsz
  have h2 := centripetal_second_loop sqrt points n hn hsz d
    (chordWeightSum sqrt points (n - 1)) (by rw [hx]) hd
  have e : sizeSub n 1 = n - 1 := sizeSub_of_le (by omega) hsz
  unfold centripetalParameterPositions
  simp only [hx, e, bind]
  simp only [bind] at h1 h2
  rw [store_of_lt _ (by simp; omega), bind_ok, store_of_lt _ (by simp; omega), bind_ok, h1,
    bind_ok]
  simp only []
  rw [h2, bind_ok]
  rfl

theorem exists_consecutive_distinct [Field K] (points : ControlPoints2D K)
    (h : ¬ AllCoincident points) :
    ∃ i : Nat, i + 1 < points.x.length ∧ pointAt points i ≠ pointAt points (i + 1) := by
  by_contra hcon
  push_neg at hcon
  have h0 : ∀ i, i < points.x.length → pointAt points i = pointAt points 0 := by
    intro i
    induction i with
    | zero => intro _; rfl
    | succ i ih => intro hi; rw [← hcon i hi]; exact ih (by omega)
  exact h (fun i j hi hj => (h0 i hi).trans (h0 j hj).symm)

theorem chordWeight_nonneg [LinearOrderedField K] (sqrt : K → K) (hnn : ∀ x, 0 ≤ sqrt x)
    (points : ControlPoints2D K) (i : Nat) : 0 ≤ chordWeight sqrt points i :=
  hnn _

theorem chordWeight_pos [LinearOrderedField K] (sqrt : K → K) (hpos : ∀ x, 0 < x → 0 < sqrt x)
    (points : ControlPoints2D K) (i : Nat) (h : pointAt points i ≠ pointAt points (i + 1)) :
    0 < chordWeight sqrt points i := by
  unfold chordWeight chordLength
  apply hpos
  apply hpos
  have hne : points.x.getD (i + 1) 0 - points.x.getD i 0 ≠ 0 ∨
      points.y.getD (i + 1) 0 - points.y.getD i 0 ≠ 0 := by
    by_contra hc
    push_neg at hc
    apply h
    simp only [pointAt, Prod.mk.injEq]
    exact ⟨(sub_eq_zero.mp hc.1).symm, (sub_eq_zero.mp hc.2).symm⟩
  generalize points.x.getD (i + 1) 0 - points.x.getD i 0 = a at hne ⊢
  generalize points.y.getD (i + 1) 0 - points.y.getD i 0 = b at hne ⊢
  rcases hne with hne | hne
  · have h1 : 0 < a ^ 2 := by positivity
    have h2 : 0 ≤ b ^ 2 := sq_nonneg b
    exact add_pos_of_pos_of_nonneg h1 h2
  · have h1 : 0 < b ^ 2 := by positivity
    have h2 : 0 ≤ a ^ 2 := sq_nonneg a
    exact add_pos_of_nonneg_of_pos h2 h1

theorem chordWeightSum_pos [LinearOrderedField K] (sqrt : K → K) (hnn : ∀ x, 0 ≤ sqrt x)
    (hpos : ∀ x, 0 < x → 0 < sqrt x) (points : ControlPoints2D K)
    (h : ¬ AllCoincident points) :
    0 < chordWeightSum sqrt points (points.x.length - 1) := by
  obtain ⟨i, hi, hne⟩ := exists_consecutive_distinct points h
  apply Finset.sum_pos'
  · intro j _; exact chordWeight_nonneg sqrt hnn points j
  · exact ⟨i, Finset.mem_range.mpr (by omega), chordWeight_pos sqrt hpos points i hne⟩

theorem parameterAt_of_ne_zero [Field K] [DecidableEq K] (sqrt : K → K)
    (points : ControlPoints2D K)
    (hS : chordWeightSum sqrt points (points.x.length - 1) ≠ 0) (k : Nat) :
    parameterAt sqrt points k
      = Dbl.finite (chordWeightSum sqrt points k /
          chordWeightSum sqrt points (points.x.length - 1)) := by
  induction k with
  | zero => simp [parameterAt, chordWeightSum]
  | succ k ih =>
    rw [parameterAt, ih]
    simp only [Dbl.div, if_neg hS, Dbl.add]
    congr 1
    simp only [chordWeightSum, Finset.sum_range_succ, add_div]

theorem parameterAt_of_eq_zero [Field K] [DecidableEq K] (sqrt : K → K)
    (points : ControlPoints2D K)
    (hS : chordWeightSum sqrt points (points.x.length - 1) = 0) (k : Nat) :
    parameterAt sqrt points (k + 1) = Dbl.nonFinite := by
  rw [parameterAt]
  simp only [Dbl.div, if_pos hS]
  cases parameterAt sqrt points k <;> rfl

theorem centripetal_getElem? [Field K] [DecidableEq K] (sqrt : K → K)
    (points : ControlPoints2D K) (n k : Nat) (hk : k < n) :
    ((List.range n).map (parameterAt sqrt points))[k]? = some (parameterAt sqrt points k) := by
  simp [List.getElem?_map, List.getElem?_range hk]

theorem chordWeight_of_coincident [Field K] (sqrt : K → K) (h0 : sqrt 0 = 0)
    (points : ControlPoints2D K) (h : AllCoincident points) (i : Nat)
    (hi : i + 1 < points.x.length) : chordWeight sqrt points i = 0 := by
  have e := h (i + 1) i hi (by omega)
  simp only [pointAt, Prod.mk.injEq] at e
  unfold chordWeight chordLength
  rw [e.1, e.2]
  simp [h0]

theorem chordWeightSum_of_coincident [Field K] (sqrt : K → K) (h0 : sqrt 0 = 0)
    (points : ControlPoints2D K) (h : AllCoincident points) :
    chordWeightSum sqrt points (points.x.length - 1) = 0 := by
  apply Finset.sum_eq_zero
  intro j hj
  exact chordWeight_of_coincident sqrt h0 points h j (by have := Finset.mem_range.mp hj; omega)

end Proofs

/-! ## The parameter estimator -/

section Estimator

variable {K : Type}

/-- C2: for at least two points with coordinate sequences of equal length that
are not all coincident, `centripetalParameterPositions` returns a sequence with
one entry per point, whose first entry is 0 and whose last entry is 1; the last
entry is the accumulated value `t[n-2] + sqrt(d[n-2]) / d_sum`. -/
theorem centripetalParameterPositions_endpoints [LinearOrderedField K] (sqrt : K → K)
    (hnn : ∀ x, 0 ≤ sqrt x) (hpos : ∀ x, 0 < x → 0 < sqrt x)
    (points : ControlPoints2D K) (hy : points.y.length = points.x.length)
    (hn : 2 ≤ points.x.length) (hsz : points.x.length < 2 ^ 64)
    (hnc : ¬ AllCoincident points) :
    ∃ t : List (Dbl K), centripetalParameterPositions sqrt points = .ok t ∧
      t.length = points.x.length ∧
      t[0]? = some (Dbl.finite 0) ∧
      t[points.x.length - 1]? = some (Dbl.finite 1) ∧
      ∃ a, t[points.x.length - 2]? = some a ∧
        Dbl.add a (Dbl.div (Dbl.finite (sqrt (chordLength sqrt points (points.x.length - 2))))
          (chordWeightSum sqrt points (points.x.length - 1))) = Dbl.finite 1 := by
  have hS := chordWeightSum_pos sqrt hnn hpos points hnc
  have hlast : parameterAt sqrt points (points.x.length - 1) = Dbl.finite 1 := by
    rw [parameterAt_of_ne_zero sqrt points (ne_of_gt hS), div_self (ne_of_gt hS)]
  refine ⟨_, centripetal_eq sqrt points _ rfl hy hn hsz, by simp, ?_, ?_, ?_⟩
  · rw [centripetal_getElem? sqrt points _ 0 (by omega)]; rfl
  · rw [centripetal_getElem? sqrt points _ _ (by omega), hlast]
  · refine ⟨_, centripetal_getElem? sqrt points _ _ (by omega), ?_⟩
    have key : parameterAt sqrt points (points.x.length - 2 + 1)
        = Dbl.add (parameterAt sqrt points (points.x.length - 2))
            (Dbl.div (Dbl.finite (sqrt (chordLength sqrt points (points.x.length - 2))))
              (chordWeightSum sqrt points (points.x.length - 1))) := rfl
    have e : points.x.length - 2 + 1 = points.x.length - 1 := by omega
    rw [e] at key
    rw [← key]
    exact hlast

/-- C2 (instance): the points (0,0), (1,0) over the real numbers. -/
theorem centripetalParameterPositions_endpoints_witness :
    ∃ t : List (Dbl ℝ),
      centripetalParameterPositions Real.sqrt ⟨[0, 1], [0, 0]⟩ = .ok t ∧
      t.length = 2 ∧ t[0]? = some (Dbl.finite 0) ∧ t[1]? = some (Dbl.finite 1) ∧
      ∃ a, t[0]? = some a ∧
        Dbl.add a (Dbl.div (Dbl.finite (Real.sqrt (chordLength Real.sqrt ⟨[0, 1], [0, 0]⟩ 0)))
          (chordWeightSum Real.sqrt ⟨[0, 1], [0, 0]⟩ 1)) = Dbl.finite 1 :=
  centripetalParameterPositions_endpoints Real.sqrt Real.sqrt_nonneg
    (fun _ h => Real.sqrt_pos.mpr h) ⟨[0, 1], [0, 0]⟩ rfl (by simp) (by simp)
    (fun h => by
      have e := h 0 1 (by simp) (by simp)
      simp [pointAt, Prod.ext_iff] at e)

/-- C3 (counterexample): the points (0,0), (0,0), (1,0) have coordinate
sequences of equal length 3 and are not all coincident, yet the estimator
returns 0, 0, 1, which is not strictly increasing. -/
theorem centripetalParameterPositions_not_strictly_increasing :
    ¬ AllCoincident (⟨[0, 0, 1], [0, 0, 0]⟩ : ControlPoints2D ℝ) ∧
    centripetalParameterPositions Real.sqrt ⟨[0, 0, 1], [0, 0, 0]⟩
      = .ok [Dbl.finite 0, Dbl.finite 0, Dbl.finite 1] ∧
    ¬ ∃ T : List ℝ,
        centripetalParameterPositions Real.sqrt ⟨[0, 0, 1], [0, 0, 0]⟩
          = .ok (T.map Dbl.finite) ∧
        ∀ i a b, T[i]? = some a → T[i + 1]? = some b → a < b := by
  have hres : centripetalParameterPositions Real.sqrt ⟨[0, 0, 1], [0, 0, 0]⟩
      = .ok [Dbl.finite 0, Dbl.finite 0, Dbl.finite 1] := by
    rw [centripetal_eq Real.sqrt ⟨[0, 0, 1], [0, 0, 0]⟩ 3 rfl rfl (by norm_num) (by norm_num)]
    simp [List.range_succ, parameterAt, chordWeightSum, chordWeight, chordLength,
      Finset.sum_range_succ, Dbl.add, Dbl.div]
  refine ⟨?_, hres, ?_⟩
  · intro h
    have e := h 0 2 (by simp) (by simp)
    simp [pointAt, Prod.ext_iff] at e
  · rintro ⟨T, hT, hlt⟩
    rw [hres] at hT
    have hT2 : T.map Dbl.finite = [Dbl.finite 0, Dbl.finite 0, Dbl.finite 1] :=
      (Except.ok.inj hT).symm
    match T, hT2 with
    | [a, b, c], h =>
      simp only [List.map_cons, List.map_nil, List.cons.injEq, Dbl.finite.injEq] at h
      have := hlt 0 a b rfl rfl
      rw [h.1, h.2.1] at this
      exact lt_irrefl _ this

/-- C3 (amended): in exact arithmetic, when no two consecutive points coincide,
the sequence returned by `centripetalParameterPositions` consists of finite
values and is strictly increasing. -/
theorem centripetalParameterPositions_strictly_increasing [LinearOrderedField K]
    (sqrt : K → K) (hnn : ∀ x, 0 ≤ sqrt x) (hpos : ∀ x, 0 < x → 0 < sqrt x)
    (points : ControlPoints2D K) (hy : points.y.length = points.x.length)
    (hn : 2 ≤ points.x.length) (hsz : points.x.length < 2 ^ 64)
    (hdist : ∀ i, i + 1 < points.x.length → pointAt points i ≠ pointAt points (i + 1)) :
    ∃ T : List K,
      centripetalParameterPositions sqrt points = .ok (T.map Dbl.finite) ∧
      T.length = points.x.length ∧
      ∀ i a b, T[i]? = some a → T[i + 1]? = some b → a < b := by
  have hnc : ¬ AllCoincident points := fun h => hdist 0 (by omega) (h 0 1 (by omega) (by omega))
  have hS := chordWeightSum_pos sqrt hnn hpos points hnc
  refine ⟨(List.range points.x.length).map (fun k => chordWeightSum sqrt points k /
    chordWeightSum sqrt points (points.x.length - 1)), ?_, by simp, ?_⟩
  · rw [centripetal_eq sqrt points _ rfl hy hn hsz, List.map_map]
    congr 1
    apply List.map_congr_left
    intro k _
    exact parameterAt_of_ne_zero sqrt points (ne_of_gt hS) k
  · intro i a b ha hb
    have hi : i + 1 < points.x.length := by
      have := (List.getElem?_eq_some_iff.mp hb).1
      simpa using this
    rw [List.getElem?_map, List.getElem?_range (by omega)] at ha hb
    simp only [Option.map_some', Option.some.injEq] at ha hb
    rw [← ha, ← hb]
    apply div_lt_div_of_pos_right _ hS
    rw [chordWeightSum, chordWeightSum, Finset.sum_range_succ]
    exact lt_add_of_pos_right _ (chordWeight_pos sqrt hpos points i (hdist i hi))

/-- C3 (amended, instance): the points (0,0), (1,0), (2,0) in the exact
arithmetic of the real numbers. -/
theorem centripetalParameterPositions_strictly_increasing_witness :
    ∃ T : List ℝ,
      centripetalParameterPositions Real.sqrt ⟨[0, 1, 2], [0, 0, 0]⟩ = .ok (T.map Dbl.finite) ∧
      T.length = 3 ∧
      ∀ i a b, T[i]? = some a → T[i + 1]? = some b → a < b :=
  centripetalParameterPositions_strictly_increasing Real.sqrt Real.sqrt_nonneg
    (fun _ h => Real.sqrt_pos.mpr h) ⟨[0, 1, 2], [0, 0, 0]⟩ rfl (by simp) (by simp)
    (fun i hi => by
      have hi2 : i = 0 ∨ i = 1 := by simp at hi; omega
      rcases hi2 with h | h <;> subst h <;> simp [pointAt, Prod.ext_iff])

/-- C10 (counterexample): for three points all equal to (2, 3) the estimator
does not fail; it returns a sequence whose entries after the first are not
numbers. -/
theorem centripetalParameterPositions_returns_on_coincident :
    AllCoincident (⟨[2, 2, 2], [3, 3, 3]⟩ : ControlPoints2D ℝ) ∧
    centripetalParameterPositions Real.sqrt ⟨[2, 2, 2], [3, 3, 3]⟩
      = .ok [Dbl.finite 0, Dbl.nonFinite, Dbl.nonFinite] ∧
    ¬ ∃ e, centripetalParameterPositions Real.sqrt ⟨[2, 2, 2], [3, 3, 3]⟩ = .error e := by
  have hres : centripetalParameterPositions Real.sqrt ⟨[2, 2, 2], [3, 3, 3]⟩
      = .ok [Dbl.finite 0, Dbl.nonFinite, Dbl.nonFinite] := by
    rw [centripetal_eq Real.sqrt ⟨[2, 2, 2], [3, 3, 3]⟩ 3 rfl rfl (by norm_num) (by norm_num)]
    simp [List.range_succ, parameterAt, chordWeightSum, chordWeight, chordLength,
      Finset.sum_range_succ, Dbl.add, Dbl.div]
  refine ⟨?_, hres, ?_⟩
  · intro i j hi hj
    have hi3 : i < 3 := hi
    have hj3 : j < 3 := hj
    interval_cases i <;> interval_cases j <;> rfl
  · rintro ⟨e, he⟩
    rw [hres] at he
    exact Except.noConfusion he

/-- C10 (amended): for at least two points that are all equal to one another,
`centripetalParameterPositions` does not fail: the sum of the chord weights is
zero, the division by it is performed, and the result has a first entry 0
followed by non-finite entries. -/
theorem centripetalParameterPositions_coincident [Field K] [DecidableEq K] (sqrt : K → K)
    (h0 : sqrt 0 = 0) (points : ControlPoints2D K)
    (hy : points.y.length = points.x.length) (hn : 2 ≤ points.x.length)
    (hsz : points.x.length < 2 ^ 64) (hall : AllCoincident points) :
    chordWeightSum sqrt points (points.x.length - 1) = 0 ∧
    centripetalParameterPositions sqrt points
      = .ok (Dbl.finite 0 :: List.replicate (points.x.length - 1) Dbl.nonFinite) := by
  have hS := chordWeightSum_of_coincident sqrt h0 points hall
  refine ⟨hS, ?_⟩
  rw [centripetal_eq sqrt points _ rfl hy hn hsz]
  congr 1
  apply List.ext_getElem?
  intro k
  by_cases hk : k < points.x.length
  · rw [centripetal_getElem? sqrt points _ k hk]
    cases k with
    | zero => simp [parameterAt]
    | succ k =>
      rw [parameterAt_of_eq_zero sqrt points hS k, List.getElem?_cons_succ,
        List.getElem?_replicate, if_pos (by omega)]
  · rw [List.getElem?_eq_none (by simp; omega), List.getElem?_eq_none (by simp; omega)]

/-- C10 (amended, instance): two points equal to (2, 3) over the real numbers. -/
theorem centripetalParameterPositions_coincident_witness :
    chordWeightSum Real.sqrt ⟨[2, 2], [3, 3]⟩ 1 = 0 ∧
    centripetalParameterPositions Real.sqrt ⟨[2, 2], [3, 3]⟩
      = .ok [Dbl.finite 0, Dbl.nonFinite] :=
  centripetalParameterPositions_coincident Real.sqrt Real.sqrt_zero ⟨[2, 2], [3, 3]⟩ rfl
    (by simp) (by simp)
    (fun i j hi hj => by
      have hi2 : i < 2 := hi
      have hj2 : j < 2 := hj
      interval_cases i <;> interval_cases j <;> rfl)

end Estimator

/-! ## The knot-vector builder -/

section KnotVector

variable {K : Type}

theorem knot_sum_loop [Field K] (parameterPositions : List (Dbl K)) (i p : Nat)
    (hi : i + p < parameterPositions.length) (hsz : parameterPositions.length < 2 ^ 63) :
    forLoop 1 (p + 1)
      (fun j (sum : Dbl K) =>
        (do
          let v ← load parameterPositions (sizeAdd i j)
          pure (Dbl.add sum v) : Except (Failure K) (Dbl K)))
      (Dbl.finite 0)
      = .ok (parameterSum parameterPositions i p) := by
  obtain ⟨s, hs, hinv⟩ := forLoop_invariant
    (fun j (sum : Dbl K) =>
        (do
          let v ← load parameterPositions (sizeAdd i j)
          pure (Dbl.add sum v) : Except (Failure K) (Dbl K)))
    (fun j sum => sum = parameterSum parameterPositions i (j - 1))
    1 (p + 1) (by omega) (Dbl.finite 0)
    (by
      intro j sum hj1 hj2 hsum
      have e1 : sizeAdd i j = i + j := sizeAdd_of_lt (by omega)
      have hl : parameterPositions[i + j]? =
          some (parameterPositions.getD (i + j) Dbl.nonFinite) := by
        rw [List.getD_eq_getElem?_getD, List.getElem?_eq_getElem (by omega)]; rfl
      refine ⟨_, ?_, rfl⟩
      simp only [e1, load_of_getElem? hl, bind, bind_ok, pure, Except.pure]
      obtain ⟨m, rfl⟩ : ∃ m, j = m + 1 := ⟨j - 1, by omega⟩
      simp only [Nat.add_sub_cancel] at hsum ⊢
      rw [hsum, parameterSum])
    rfl
  rw [hs, hinv]
  rfl

theorem knot_inner_loop [Field K] [DecidableEq K] (parameterPositions : List (Dbl K))
    (p : Nat) (hp : p + 1 ≤ parameterPositions.length)
    (hsz : parameterPositions.length < 2 ^ 63) :
    ∃ U : List (Dbl K),
      forLoop 0 (parameterPositions.length - p - 1)
        (fun i (knotVector : List (Dbl K)) =>
          (do
            let sum ← forLoop 1 (sizeAdd p 1)
              (fun j (sum : Dbl K) => do
                let v ← load parameterPositions (sizeAdd i j)
                pure (Dbl.add sum v))
              (Dbl.finite 0)
            store knotVector (sizeAdd (sizeAdd i p) 1) (Dbl.div sum (p : K)) :
            Except (Failure K) (List (Dbl K))))
        (List.replicate (parameterPositions.length + p + 1) (Dbl.finite 0))
        = .ok U ∧
      U.length = parameterPositions.length + p + 1 ∧
      ∀ j, j < parameterPositions.length + p + 1 →
        U[j]? = some (if p + 1 ≤ j ∧ j < parameterPositions.length then
          Dbl.div (parameterSum parameterPositions (j - p - 1) p) (p : K) else Dbl.finite 0) := by
  have ep : sizeAdd p 1 = p + 1 := sizeAdd_of_lt (by omega)
  obtain ⟨U, hU, hlen, hget⟩ := forLoop_invariant
    (fun i (knotVector : List (Dbl K)) =>
          (do
            let sum ← forLoop 1 (sizeAdd p 1)
              (fun j (sum : Dbl K) => do
                let v ← load parameterPositions (sizeAdd i j)
                pure (Dbl.add sum v))
              (Dbl.finite 0)
            store knotVector (sizeAdd (sizeAdd i p) 1) (Dbl.div sum (p : K)) :
            Except (Failure K) (List (Dbl K))))
    (fun i U => U.length = parameterPositions.length + p + 1 ∧
      ∀ j, j < parameterPositions.length + p + 1 →
        U[j]? = some (if p + 1 ≤ j ∧ j < p + 1 + i then
          Dbl.div (parameterSum parameterPositions (j - p - 1) p) (p : K) else Dbl.finite 0))
    0 (parameterPositions.length - p - 1) (Nat.zero_le _)
    (List.replicate (parameterPositions.length + p + 1) (Dbl.finite 0))
    (by
      rintro i U - hi ⟨hlen, hget⟩
      have e0 : sizeAdd i p = i + p := sizeAdd_of_lt (by omega)
      have e1 : sizeAdd (sizeAdd i p) 1 = i + p + 1 := by
        rw [e0, sizeAdd_of_lt (by omega)]
      have hsum := knot_sum_loop parameterPositions i p (by omega) hsz
      simp only [bind] at hsum
      refine ⟨U.set (i + p + 1) (Dbl.div (parameterSum parameterPositions i p) (p : K)),
        ?_, by simpa using hlen, ?_⟩
      · simp only [ep, e1, bind]
        rw [hsum, bind_ok, store_of_lt _ (by omega)]
      · intro j hj
        by_cases hji : j = i + p + 1
        · subst hji
          rw [List.getElem?_set_self (by omega), if_pos (by omega)]
          have : i + p + 1 - p - 1 = i := by omega
          rw [this]
        · rw [List.getElem?_set_ne (by omega), hget j hj]
          by_cases h1 : p + 1 ≤ j ∧ j < p + 1 + i
          · rw [if_pos h1, if_pos (by omega)]
          · rw [if_neg h1, if_neg (by omega)])
    ⟨by simp, by
      intro j hj
      rw [if_neg (by omega), List.getElem?_replicate, if_pos hj]⟩
  refine ⟨U, hU, hlen, ?_⟩
  intro j hj
  rw [hget j hj]
  by_cases h1 : p + 1 ≤ j ∧ j < parameterPositions.length
  · rw [if_pos h1, if_pos (by omega)]
  · rw [if_neg h1, if_neg (by omega)]

theorem knot_clamp_loop [Field K] [DecidableEq K] (parameterPositions : List (Dbl K))
    (p : Nat) (hp : p + 1 ≤ parameterPositions.length)
    (hsz : parameterPositions.length < 2 ^ 63) (U : List (Dbl K))
    (hlen : U.length = parameterPositions.length + p + 1)
    (hget : ∀ j, j < parameterPositions.length + p + 1 →
        U[j]? = some (if p + 1 ≤ j ∧ j < parameterPositions.length then
          Dbl.div (parameterSum parameterPositions (j - p - 1) p) (p : K) else Dbl.finite 0)) :
    forLoop 0 (p + 1)
      (fun i (knotVector : List (Dbl K)) =>
        (store knotVector
          (sizeAdd (sizeAdd (sizeAdd (parameterPositions.length - p - 1) p) 1) i)
          (Dbl.finite 1) : Except (Failure K) (List (Dbl K))))
      U
      = .ok ((List.range (parameterPositions.length + p + 1)).map
          (knotAt parameterPositions p)) := by
  obtain ⟨V, hV, hlenV, hgetV⟩ := forLoop_invariant
    (fun i (knotVector : List (Dbl K)) =>
        (store knotVector
          (sizeAdd (sizeAdd (sizeAdd (parameterPositions.length - p - 1) p) 1) i)
          (Dbl.finite 1) : Except (Failure K) (List (Dbl K))))
    (fun i V => V.length = parameterPositions.length + p + 1 ∧
      ∀ j, j < parameterPositions.length + p + 1 →
        V[j]? = some (if parameterPositions.length + i ≤ j
          then Dbl.finite 0 else knotAt parameterPositions p j))
    0 (p + 1) (Nat.zero_le _) U
    (by
      rintro i V - hi ⟨hlenV, hgetV⟩
      have e1 : sizeAdd (sizeAdd (sizeAdd (parameterPositions.length - p - 1) p) 1) i
          = parameterPositions.length + i := by
        have a0 : sizeAdd (parameterPositions.length - p - 1) p
            = parameterPositions.length - 1 := by
          rw [sizeAdd_of_lt (by omega)]; omega
        have a1 : sizeAdd (parameterPositions.length - 1) 1 = parameterPositions.length := by
          rw [sizeAdd_of_lt (by omega)]; omega
        rw [a0, a1, sizeAdd_of_lt (by omega)]
      refine ⟨V.set (parameterPositions.length + i) (Dbl.finite 1), ?_,
        by simpa using hlenV, ?_⟩
      · simp only [e1]
        rw [store_of_lt _ (by omega)]
      · intro j hj
        by_cases hji : j = parameterPositions.length + i
        · subst hji
          rw [List.getElem?_set_self (by omega), if_neg (by omega)]
          unfold knotAt
          rw [if_neg (by omega), if_neg (by omega)]
        · rw [List.getElem?_set_ne (by omega), hgetV j hj]
          by_cases h1 : parameterPositions.length + i ≤ j
          · rw [if_pos h1, if_pos (by omega)]
          · rw [if_neg h1, if_neg (by omega)])
    ⟨hlen, by
      intro j hj
      rw [hget j hj]
      unfold knotAt
      by_cases h0 : j ≤ p
      · rw [if_pos h0, if_neg (by omega), if_neg (by omega)]
      · by_cases h1 : j < parameterPositions.length
        · rw [if_neg h0, if_pos h1, if_pos (by omega), if_neg (by omega)]
        · rw [if_neg (by omega), if_pos (by omega)]⟩
  rw [hV]
  congr 1
  apply List.ext_getElem?
  intro j
  by_cases hj : j < parameterPositions.length + p + 1
  · rw [hgetV j hj, if_neg (by omega)]
    simp [List.getElem?_map, List.getElem?_range hj]
  · rw [List.getElem?_eq_none (by omega), List.getElem?_eq_none (by simp; omega)]

/-- For a degree `p` with `p + 1` at most the number of parameters, the builder
returns the knots `knotAt`. -/
theorem knot_eq [Field K] [DecidableEq K] (parameterPositions : List (Dbl K))
    (p : Nat) (hp : p + 1 ≤ parameterPositions.length)
    (hsz : parameterPositions.length < 2 ^ 63) :
    knotVectorUsingAveraging parameterPositions p
      = .ok ((List.range (parameterPositions.length + p + 1)).map
          (knotAt parameterPositions p)) := by
  obtain ⟨U, hU, hlen, hget⟩ := knot_inner_loop parameterPositions p hp hsz
  have h2 := knot_clamp_loop parameterPositions p hp hsz U hlen hget
  have e1 : sizeSub parameterPositions.length 1 = parameterPositions.length - 1 :=
    sizeSub_of_le (by omega) (by omega)
  have e2 : sizeSub parameterPositions.length p = parameterPositions.length - p :=
    sizeSub_of_le (by omega) (by omega)
  have e3 : sizeSub (parameterPositions.length - p) 1 = parameterPositions.length - p - 1 :=
    sizeSub_of_le (by omega) (by omega)
  have e4 : sizeAdd parameterPositions.length p = parameterPositions.length + p :=
    sizeAdd_of_lt (by omega)
  have e5 : sizeAdd (parameterPositions.length + p) 1 = parameterPositions.length + p + 1 :=
    sizeAdd_of_lt (by omega)
  have e6 : sizeAdd p 1 = p + 1 := sizeAdd_of_lt (by omega)
  unfold knotVectorUsingAveraging
  simp only [e1, e2, e3, e4, e5, bind]
  simp only [bind] at hU
  rw [if_neg (by omega), hU, bind_ok, e6, h2, bind_ok]
  rfl

theorem knot_getElem? [Field K] [DecidableEq K] (parameterPositions : List (Dbl K))
    (p j : Nat) (hj : j < parameterPositions.length + p + 1) :
    ((List.range (parameterPositions.length + p + 1)).map (knotAt parameterPositions p))[j]?
      = some (knotAt parameterPositions p j) := by
  simp [List.getElem?_map, List.getElem?_range hj]

/-- C5: for a degree `p` with `1 ≤ p ≤ n - 1`, `knotVectorUsingAveraging` returns
a vector of length `n + p + 1` whose first `p + 1` entries are 0 and whose last
`p + 1` entries are 1; for `p = n - 1` the result is `p + 1` zeros followed by
`p + 1` ones, whatever the parameters are. -/
theorem knotVectorUsingAveraging_clamped [Field K] [DecidableEq K]
    (parameterPositions : List (Dbl K)) (p : Nat) (hp1 : 1 ≤ p)
    (hp : p ≤ parameterPositions.length - 1) (hsz : parameterPositions.length < 2 ^ 63) :
    ∃ U : List (Dbl K), knotVectorUsingAveraging parameterPositions p = .ok U ∧
      U.length = parameterPositions.length + p + 1 ∧
      (∀ j, j < p + 1 → U[j]? = some (Dbl.finite 0)) ∧
      (∀ j, parameterPositions.length ≤ j → j < parameterPositions.length + p + 1 →
        U[j]? = some (Dbl.finite 1)) ∧
      (p = parameterPositions.length - 1 →
        U = List.replicate (p + 1) (Dbl.finite 0) ++ List.replicate (p + 1) (Dbl.finite 1)) := by
  refine ⟨_, knot_eq parameterPositions p (by omega) hsz, by simp, ?_, ?_, ?_⟩
  · intro j hj
    rw [knot_getElem? parameterPositions p j (by omega), knotAt, if_pos (by omega)]
  · intro j hj1 hj2
    rw [knot_getElem? parameterPositions p j hj2, knotAt, if_neg (by omega), if_neg (by omega)]
  · intro hpn
    apply List.ext_getElem?
    intro j
    by_cases hj : j < parameterPositions.length + p + 1
    · rw [knot_getElem? parameterPositions p j hj, knotAt]
      by_cases h0 : j ≤ p
      · rw [if_pos h0, List.getElem?_append_left (by simp; omega), List.getElem?_replicate,
          if_pos (by omega)]
      · rw [if_neg h0, if_neg (by omega), List.getElem?_append_right (by simp; omega),
          List.getElem?_replicate, if_pos (by simp; omega)]
    · rw [List.getElem?_eq_none (by simp; omega), List.getElem?_eq_none (by simp; omega)]

/-- C5 (instance): 4 parameters and the degree 3 give the knot vector
0, 0, 0, 0, 1, 1, 1, 1. -/
theorem knotVectorUsingAveraging_clamped_witness :
    knotVectorUsingAveraging
        ([Dbl.finite 0, Dbl.finite (1 / 3), Dbl.finite (2 / 3), Dbl.finite 1] : List (Dbl ℚ)) 3
      = .ok [Dbl.finite 0, Dbl.finite 0, Dbl.finite 0, Dbl.finite 0,
          Dbl.finite 1, Dbl.finite 1, Dbl.finite 1, Dbl.finite 1] := by
  obtain ⟨U, hU, -, -, -, hrep⟩ := knotVectorUsingAveraging_clamped
    ([Dbl.finite 0, Dbl.finite (1 / 3), Dbl.finite (2 / 3), Dbl.finite 1] : List (Dbl ℚ)) 3
    (by decide) (by decide) (by decide)
  rw [hU, hrep rfl]
  rfl

/-- C8: for at least one parameter, `knotVectorUsingAveraging` fails exactly
when the degree `p` exceeds `n - 1`; the failure is the runtime error with the
message "Polynomial degree p is too high for n interpolation points.", and for
`p ≤ n - 1` a knot vector is returned. -/
theorem knotVectorUsingAveraging_invalid_degree [Field K] [DecidableEq K]
    (parameterPositions : List (Dbl K)) (p : Nat) (hn : 1 ≤ parameterPositions.length)
    (hsz : parameterPositions.length < 2 ^ 63) :
    ((∃ e, knotVectorUsingAveraging parameterPositions p = .error e) ↔
      p > parameterPositions.length - 1) ∧
    (p > parameterPositions.length - 1 →
      knotVectorUsingAveraging parameterPositions p = .error (.runtime_error
        ("Polynomial degree " ++ to_string p ++ " is too high for " ++
          to_string parameterPositions.length ++ " interpolation points."))) ∧
    (p ≤ parameterPositions.length - 1 →
      ∃ U : List (Dbl K), knotVectorUsingAveraging parameterPositions p = .ok U ∧
        U.length = parameterPositions.length + p + 1) := by
  have e1 : sizeSub parameterPositions.length 1 = parameterPositions.length - 1 :=
    sizeSub_of_le (by omega) (by omega)
  have herr : p > parameterPositions.length - 1 →
      knotVectorUsingAveraging parameterPositions p = .error (.runtime_error
        ("Polynomial degree " ++ to_string p ++ " is too high for " ++
          to_string parameterPositions.length ++ " interpolation points.")) := by
    intro h
    unfold knotVectorUsingAveraging
    simp only [e1]
    rw [if_pos h]
  refine ⟨⟨?_, fun h => ⟨_, herr h⟩⟩, herr, ?_⟩
  · rintro ⟨e, he⟩
    by_contra hle
    rw [knot_eq parameterPositions p (by omega) hsz] at he
    exact Except.noConfusion he
  · intro hle
    exact ⟨_, knot_eq parameterPositions p (by omega) hsz, by simp⟩

/-- C8 (instance): 5 parameters and the degree 5. -/
theorem knotVectorUsingAveraging_invalid_degree_witness :
    knotVectorUsingAveraging
        ([Dbl.finite 0, Dbl.finite (1 / 4), Dbl.finite (1 / 2), Dbl.finite (3 / 4),
          Dbl.finite 1] : List (Dbl ℚ)) 5
      = .error (.runtime_error "Polynomial degree 5 is too high for 5 interpolation points.") :=
  (knotVectorUsingAveraging_invalid_degree
    ([Dbl.finite 0, Dbl.finite (1 / 4), Dbl.finite (1 / 2), Dbl.finite (3 / 4),
      Dbl.finite 1] : List (Dbl ℚ)) 5 (by decide) (by decide)).2.1 (by decide)

theorem getD_map_finite [Zero K] (T : List K) (i : Nat) (hi : i < T.length) :
    (T.map Dbl.finite).getD i Dbl.nonFinite = Dbl.finite (T.getD i 0) := by
  rw [List.getD_eq_getElem?_getD, List.getD_eq_getElem?_getD, List.getElem?_map,
    List.getElem?_eq_getElem hi]
  rfl

theorem parameterSum_finite [Field K] (T : List K) (i : Nat) :
    ∀ m, i + m < T.length →
      parameterSum (T.map Dbl.finite) i m
        = Dbl.finite (Finset.sum (Finset.range m) (fun k => T.getD (i + (k + 1)) 0)) := by
  intro m
  induction m with
  | zero => intro _; simp [parameterSum]
  | succ m ih =>
    intro h
    rw [parameterSum, ih (by omega), getD_map_finite T _ h, Finset.sum_range_succ]
    rfl

theorem knotAt_finite [LinearOrderedField K] (T : List K) (p j : Nat) (hp1 : 1 ≤ p) :
    knotAt (T.map Dbl.finite) p j = Dbl.finite (knotValue T p j) := by
  have hpK : (p : K) ≠ 0 := Nat.cast_ne_zero.mpr (by omega)
  unfold knotAt knotValue
  rw [List.length_map]
  by_cases h0 : j ≤ p
  · rw [if_pos h0, if_pos h0]
  · rw [if_neg h0, if_neg h0]
    by_cases h1 : j < T.length
    · rw [if_pos h1, if_pos h1, parameterSum_finite T _ p (by omega)]
      simp only [Dbl.div, if_neg hpK]
    · rw [if_neg h1, if_neg h1]

theorem knot_finite_eq [LinearOrderedField K] (T : List K) (p : Nat) (hp1 : 1 ≤ p)
    (hp : p + 1 ≤ T.length) (hsz : T.length < 2 ^ 63) :
    knotVectorUsingAveraging (T.map Dbl.finite) p
      = .ok (((List.range (T.length + p + 1)).map (knotValue T p)).map Dbl.finite) := by
  rw [knot_eq (T.map Dbl.finite) p (by simpa using hp) (by simpa using hsz), List.map_map,
    List.length_map]
  congr 1
  apply List.map_congr_left
  intro j _
  exact knotAt_finite T p j hp1

theorem knotValue_getElem? [Field K] (T : List K) (p j : Nat) (hj : j < T.length + p + 1) :
    ((List.range (T.length + p + 1)).map (knotValue T p))[j]? = some (knotValue T p j) := by
  simp [List.getElem?_map, List.getElem?_range hj]

theorem getD_of_getElem? {α : Type} (T : List α) (i : Nat) (d : α) (hi : i < T.length) :
    T[i]? = some (T.getD i d) := by
  rw [List.getD_eq_getElem?_getD, List.getElem?_eq_getElem hi]; rfl

theorem monotone_of_adjacent [LinearOrderedField K] (T : List K)
    (hinc : ∀ i a b, T[i]? = some a → T[i + 1]? = some b → a < b) (i : Nat) :
    ∀ j, i ≤ j → j < T.length → T.getD i 0 ≤ T.getD j 0 := by
  intro j
  induction j with
  | zero => intro h _; rw [Nat.le_zero.mp h]
  | succ j ih =>
    intro hij hj
    rcases Nat.eq_or_lt_of_le hij with h | h
    · rw [h]
    · exact le_trans (ih (by omega) (by omega))
        (le_of_lt (hinc j _ _ (getD_of_getElem? T j 0 (by omega))
          (getD_of_getElem? T (j + 1) 0 hj)))

theorem knotValue_monotone [LinearOrderedField K] (T : List K) (p : Nat) (hp1 : 1 ≤ p)
    (hmono : ∀ i j, i ≤ j → j < T.length → T.getD i 0 ≤ T.getD j 0)
    (h0 : T.getD 0 0 = 0) (h1 : T.getD (T.length - 1) 0 = 1) (j : Nat) :
    knotValue T p j ≤ knotValue T p (j + 1) := by
  have hpK : (0 : K) < (p : K) := Nat.cast_pos.mpr (by omega)
  have hge : ∀ i, i < T.length → 0 ≤ T.getD i 0 := fun i hi => by
    have h := hmono 0 i (Nat.zero_le _) hi
    rw [h0] at h; exact h
  have hle : ∀ i, i < T.length → T.getD i 0 ≤ 1 := fun i hi => by
    have h := hmono i (T.length - 1) (by omega) (by omega)
    rw [h1] at h; exact h
  unfold knotValue
  by_cases c1 : j + 1 ≤ p
  · rw [if_pos (by omega), if_pos c1]
  · rw [if_neg c1]
    by_cases c2 : j + 1 < T.length
    · rw [if_pos c2]
      by_cases c3 : j ≤ p
      · rw [if_pos c3]
        apply div_nonneg _ (le_of_lt hpK)
        apply Finset.sum_nonneg
        intro m hm
        exact hge _ (by have := Finset.mem_range.mp hm; omega)
      · rw [if_neg c3, if_pos (by omega)]
        apply div_le_div_of_nonneg_right _ (le_of_lt hpK)
        apply Finset.sum_le_sum
        intro m hm
        have := Finset.mem_range.mp hm
        exact hmono _ _ (by omega) (by omega)
    · rw [if_neg c2]
      by_cases c3 : j ≤ p
      · rw [if_pos c3]; exact zero_le_one
      · rw [if_neg c3]
        by_cases c4 : j < T.length
        · rw [if_pos c4, div_le_one hpK]
          calc Finset.sum (Finset.range p) (fun m => T.getD (j - p - 1 + (m + 1)) 0)
              ≤ Finset.sum (Finset.range p) (fun _ => (1 : K)) := by
                apply Finset.sum_le_sum
                intro m hm
                exact hle _ (by have := Finset.mem_range.mp hm; omega)
            _ = (p : K) := by simp
        · rw [if_neg c4]

/-- C6: for a strictly increasing parameter sequence that starts at 0 and ends
at 1, and a degree `p` with `1 ≤ p ≤ n - 1`, the vector returned by
`knotVectorUsingAveraging` consists of finite values and is non-decreasing. -/
theorem knotVectorUsingAveraging_nondecreasing [LinearOrderedField K] (T : List K) (p : Nat)
    (hinc : ∀ i a b, T[i]? = some a → T[i + 1]? = some b → a < b)
    (hfirst : T[0]? = some 0) (hlast : T[T.length - 1]? = some 1)
    (hp1 : 1 ≤ p) (hp : p ≤ T.length - 1) (hsz : T.length < 2 ^ 63) :
    ∃ U : List K, knotVectorUsingAveraging (T.map Dbl.finite) p = .ok (U.map Dbl.finite) ∧
      U.length = T.length + p + 1 ∧
      ∀ j a b, j < T.length + p → U[j]? = some a → U[j + 1]? = some b → a ≤ b := by
  have h0 : T.getD 0 0 = 0 := by rw [List.getD_eq_getElem?_getD, hfirst]; rfl
  have h1 : T.getD (T.length - 1) 0 = 1 := by rw [List.getD_eq_getElem?_getD, hlast]; rfl
  refine ⟨_, knot_finite_eq T p hp1 (by omega) hsz, by simp, ?_⟩
  intro j a b hj ha hb
  rw [knotValue_getElem? T p j (by omega)] at ha
  rw [knotValue_getElem? T p (j + 1) (by omega)] at hb
  rw [← Option.some.inj ha, ← Option.some.inj hb]
  exact knotValue_monotone T p hp1 (monotone_of_adjacent T hinc) h0 h1 j

/-- C6 (instance): the parameters 0, 1/4, 1/3, 2/3, 1 and the degree 2. -/
theorem knotVectorUsingAveraging_nondecreasing_witness :
    ∃ U : List ℚ,
      knotVectorUsingAveraging (([0, 1 / 4, 1 / 3, 2 / 3, 1] : List ℚ).map Dbl.finite) 2
        = .ok (U.map Dbl.finite) ∧
      U.length = 8 ∧
      ∀ j a b, j < 7 → U[j]? = some a → U[j + 1]? = some b → a ≤ b :=
  knotVectorUsingAveraging_nondecreasing ([0, 1 / 4, 1 / 3, 2 / 3, 1] : List ℚ) 2
    (fun i a b ha hb => by
      have hi : i + 1 < 5 := by
        have := (List.getElem?_eq_some_iff.mp hb).1
        simpa using this
      have hi4 : i < 4 := by omega
      interval_cases i <;>
        simp only [List.getElem?_cons_zero, List.getElem?_cons_succ, Option.some.injEq] at ha hb <;>
        rw [← ha, ← hb] <;> norm_num)
    rfl rfl (by decide) (by decide) (by decide)

theorem knotValue_interior [Field K] (T : List K) (p i : Nat) (hi : i < T.length - p - 1) :
    knotValue T p (p + 1 + i)
      = (Finset.sum (Finset.Icc (i + 1) (i + p)) (fun k => T.getD k 0)) / (p : K) := by
  unfold knotValue
  rw [if_neg (by omega), if_pos (by omega), ← Nat.Ico_succ_right, Finset.sum_Ico_eq_sum_range]
  have e : (i + p).succ - (i + 1) = p := by omega
  rw [e]
  congr 1
  apply Finset.sum_congr rfl
  intro m _
  congr 1
  omega

/-- C7: for a degree `p` with `1 ≤ p ≤ n - 1`, the entry `p + 1 + i` of the
vector returned by `knotVectorUsingAveraging`, for `i < n - p - 1`, is the
average `(t[i+1] + ... + t[i+p]) / p`; every other entry is one of the leading
`p + 1` zeros or one of the trailing `p + 1` ones. -/
theorem knotVectorUsingAveraging_interior [LinearOrderedField K] (T : List K) (p : Nat)
    (hp1 : 1 ≤ p) (hp : p ≤ T.length - 1) (hsz : T.length < 2 ^ 63) :
    ∃ U : List K, knotVectorUsingAveraging (T.map Dbl.finite) p = .ok (U.map Dbl.finite) ∧
      U.length = T.length + p + 1 ∧
      (∀ i, i < T.length - p - 1 →
        U[p + 1 + i]?
          = some ((Finset.sum (Finset.Icc (i + 1) (i + p)) (fun k => T.getD k 0)) / (p : K))) ∧
      (∀ j, j < T.length + p + 1 → (∀ i, i < T.length - p - 1 → j ≠ p + 1 + i) →
        (j < p + 1 ∧ U[j]? = some 0) ∨ (T.length ≤ j ∧ U[j]? = some 1)) := by
  refine ⟨_, knot_finite_eq T p hp1 (by omega) hsz, by simp, ?_, ?_⟩
  · intro i hi
    rw [knotValue_getElem? T p _ (by omega), knotValue_interior T p i hi]
  · intro j hj hne
    rw [knotValue_getElem? T p j hj]
    by_cases h0 : j ≤ p
    · left
      exact ⟨by omega, by rw [knotValue, if_pos h0]⟩
    · right
      have hjn : T.length ≤ j := by
        by_contra hlt
        exact hne (j - p - 1) (by omega) (by omega)
      exact ⟨hjn, by rw [knotValue, if_neg h0, if_neg (by omega)]⟩

/-- C7 (instance): the parameters 0, 1/4, 1/3, 2/3, 1 and the degree 2. -/
theorem knotVectorUsingAveraging_interior_witness :
    ∃ U : List ℚ,
      knotVectorUsingAveraging (([0, 1 / 4, 1 / 3, 2 / 3, 1] : List ℚ).map Dbl.finite) 2
        = .ok (U.map Dbl.finite) ∧
      U.length = 8 ∧
      (∀ i, i < 2 →
        U[2 + 1 + i]?
          = some ((Finset.sum (Finset.Icc (i + 1) (i + 2))
              (fun k => ([0, 1 / 4, 1 / 3, 2 / 3, 1] : List ℚ).getD k 0)) / ((2 : Nat) : ℚ))) ∧
      (∀ j, j < 8 → (∀ i, i < 2 → j ≠ 2 + 1 + i) →
        (j < 3 ∧ U[j]? = some 0) ∨ (5 ≤ j ∧ U[j]? = some 1)) :=
  knotVectorUsingAveraging_interior ([0, 1 / 4, 1 / 3, 2 / 3, 1] : List ℚ) 2
    (by decide) (by decide) (by decide)

end KnotVector

/-! ## The interpolation routine -/

section Interpolation

variable {K : Type}

theorem bind_error {ε α β : Type} (e : ε) (f : α → Except ε β) :
    (Except.error e : Except ε α).bind f = .error e := rfl

theorem loopFrom_partial {σ ε : Type} (body : Nat → σ → Except ε σ) (Inv : Nat → σ → Prop) :
    ∀ (count lo : Nat) (s s' : σ),
      (∀ i s s', lo ≤ i → i < lo + count → Inv i s → body i s = .ok s' → Inv (i + 1) s') →
      Inv lo s → loopFrom body count lo s = .ok s' → Inv (lo + count) s' := by
  intro count
  induction count with
  | zero =>
    intro lo s s' _ h0 h
    simp only [loopFrom] at h
    rw [← Except.ok.inj h]
    exact h0
  | succ c ih =>
    intro lo s s' step h0 h
    simp only [loopFrom] at h
    cases hb : body lo s with
    | error e => rw [hb] at h; exact Except.noConfusion h
    | ok s1 =>
      rw [hb] at h
      have h1 := step lo s s1 (Nat.le_refl _) (by omega) h0 hb
      have h2 := ih (lo + 1) s1 s'
        (fun i s s' hi hlt hinv hbody => step i s s' (by omega) (by omega) hinv hbody) h1 h
      have e : lo + (c + 1) = lo + 1 + c := by omega
      rw [e]; exact h2

theorem forLoop_partial {σ ε : Type} (body : Nat → σ → Except ε σ) (Inv : Nat → σ → Prop)
    (n : Nat) (s s' : σ)
    (step : ∀ i s s', i < n → Inv i s → body i s = .ok s' → Inv (i + 1) s')
    (h0 : Inv 0 s) (h : forLoop 0 n body s = .ok s') : Inv n s' := by
  have h2 := loopFrom_partial body Inv (n - 0) 0 s s'
    (fun i s s' _ hlt hinv hbody => step i s s' (by omega) hinv hbody) h0 h
  simpa using h2

theorem load_ok {α : Type} {v : List α} {i : Nat} {a : α}
    (h : (load v i : Except (Failure K) α) = .ok a) : v[i]? = some a := by
  unfold load at h
  cases hv : v[i]? with
  | none => rw [hv] at h; exact Except.noConfusion h
  | some b => rw [hv] at h; rw [Except.ok.inj h]

theorem store_ok {α : Type} {v v' : List α} {i : Nat} {a : α}
    (h : (store v i a : Except (Failure K) (List α)) = .ok v') :
    i < v.length ∧ v' = v.set i a := by
  unfold store at h
  by_cases hi : i < v.length
  · rw [if_pos hi] at h; exact ⟨hi, (Except.ok.inj h).symm⟩
  · rw [if_neg hi] at h; exact Except.noConfusion h

theorem getD_set_self {α : Type} (v : List α) (i : Nat) (a d : α) (h : i < v.length) :
    (v.set i a).getD i d = a := by
  rw [List.getD_eq_getElem?_getD, List.getElem?_set_self h, Option.getD_some]

theorem getD_set_ne {α : Type} (v : List α) (i j : Nat) (a d : α) (h : i ≠ j) :
    (v.set i a).getD j d = v.getD j d := by
  rw [List.getD_eq_getElem?_getD, List.getElem?_set_ne h, ← List.getD_eq_getElem?_getD]

theorem assign_ok (N N' : Matrix K) (k i : Nat) (a : Dbl K)
    (h : Matrix.assign N k i a = .ok N') :
    Matrix.entry N' k i = a ∧
    ∀ k' i', (k' ≠ k ∨ i' ≠ i) → Matrix.entry N' k' i' = Matrix.entry N k' i' := by
  unfold Matrix.assign at h
  simp only [bind] at h
  cases h1 : (load N k : Except (Failure K) (List (Dbl K))) with
  | error e => rw [h1, bind_error] at h; exact Except.noConfusion h
  | ok row =>
    rw [h1, bind_ok] at h
    cases h2 : (store row i a : Except (Failure K) (List (Dbl K))) with
    | error e => rw [h2, bind_error] at h; exact Except.noConfusion h
    | ok row' =>
      rw [h2, bind_ok] at h
      have hrow := load_ok h1
      obtain ⟨hi, hrow'⟩ := store_ok h2
      obtain ⟨hk, hN'⟩ := store_ok h
      subst hrow' hN'
      have hNk : N.getD k [] = row := by rw [List.getD_eq_getElem?_getD, hrow]; rfl
      constructor
      · unfold Matrix.entry
        rw [getD_set_self N k _ _ hk, getD_set_self row i _ _ hi]
      · intro k' i' hne
        unfold Matrix.entry
        by_cases hkk : k' = k
        · subst hkk
          have hii : i' ≠ i := by
            rcases hne with h | h
            · exact absurd rfl h
            · exact h
          rw [getD_set_self N k' _ _ hk, hNk, getD_set_ne row i i' _ _ (Ne.symm hii)]
        · rw [getD_set_ne N k k' _ _ (Ne.symm hkk)]

theorem collocation_partial (evaluateBSplineBasis : Dbl K → Nat → Nat → List (Dbl K) → Dbl K)
    (t : List (Dbl K)) (p : Nat) (U : List (Dbl K)) (n : Nat) (N0 N : Matrix K)
    (h : forLoop 0 n
      (fun k (N : Matrix K) =>
        forLoop 0 n
          (fun i (N : Matrix K) =>
            (do
              let tk ← load t k
              Matrix.assign N k i (evaluateBSplineBasis tk i p U) :
              Except (Failure K) (Matrix K)))
          N)
      N0 = .ok N) :
    ∀ k, k < n → ∃ tk, t[k]? = some tk ∧
      ∀ i, i < n → Matrix.entry N k i = evaluateBSplineBasis tk i p U := by
  refine forLoop_partial _
    (fun k (N : Matrix K) => ∀ k', k' < k → ∃ tk, t[k']? = some tk ∧
      ∀ i, i < n → Matrix.entry N k' i = evaluateBSplineBasis tk i p U)
    n N0 N ?_ (fun k' hk' => absurd hk' (Nat.not_lt_zero _)) h
  intro k M M' hk hM hrow
  have hin := forLoop_partial _
    (fun i (M : Matrix K) =>
      (∀ k', k' < k → ∃ tk, t[k']? = some tk ∧
        ∀ i, i < n → Matrix.entry M k' i = evaluateBSplineBasis tk i p U) ∧
      (∀ tk, t[k]? = some tk → ∀ i', i' < i →
        Matrix.entry M k i' = evaluateBSplineBasis tk i' p U) ∧
      (0 < i → ∃ tk, t[k]? = some tk))
    n M M'
    (by
      rintro i A A' - ⟨hA1, hA2, -⟩ hbody
      simp only [bind] at hbody
      cases hl : (load t k : Except (Failure K) (Dbl K)) with
      | error e => rw [hl, bind_error] at hbody; exact Except.noConfusion hbody
      | ok tk =>
        rw [hl, bind_ok] at hbody
        have htk := load_ok hl
        obtain ⟨hset, hkeep⟩ := assign_ok A A' k i _ hbody
        refine ⟨?_, ?_, fun _ => ⟨tk, htk⟩⟩
        · intro k' hk'
          obtain ⟨tk', h1, h2⟩ := hA1 k' hk'
          refine ⟨tk', h1, fun i' hi' => ?_⟩
          rw [hkeep k' i' (Or.inl (by omega))]
          exact h2 i' hi'
        · intro tk2 htk2 i' hi'
          have e : tk2 = tk := Option.some.inj (htk2.symm.trans htk)
          subst e
          by_cases hii : i' = i
          · subst hii; exact hset
          · rw [hkeep k i' (Or.inr hii)]
            exact hA2 tk2 htk2 i' (by omega))
    ⟨hM, fun _ _ i' hi' => absurd hi' (Nat.not_lt_zero _), fun h0 => absurd h0 (Nat.lt_irrefl _)⟩
    hrow
  obtain ⟨h1, h2, h3⟩ := hin
  intro k' hk'
  by_cases hkk : k' = k
  · subst hkk
    obtain ⟨tk, htk⟩ := h3 (by omega)
    exact ⟨tk, htk, fun i hi => h2 tk htk i hi⟩
  · exact h1 k' (by omega)

theorem dblSum_congr [Add K] [Zero K] (n : Nat) (f g : Nat → Dbl K)
    (h : ∀ i, i < n → f i = g i) : dblSum n f = dblSum n g := by
  induction n with
  | zero => rfl
  | succ n ih =>
    have h1 := ih (fun i hi => h i (by omega))
    unfold dblSum at h1 ⊢
    rw [List.range_succ, List.foldl_append, List.foldl_append, h1]
    simp only [List.foldl_cons, List.foldl_nil]
    rw [h n (by omega)]

/-- C1: with a solver whose successful results solve the system exactly,
whenever `interpolateWithBSplineCurve` returns control points and a knot vector,
the spline they define reproduces every input point at its parameter: for each
`k < n`, the sum over `i < n` of `evaluate(t[k], i, p, knotVector)` times the
control coordinate `i` is `x[k]`, respectively `y[k]`, where `t` is the result of
`centripetalParameterPositions`. -/
theorem interpolateWithBSplineCurve_interpolates [Field K] [DecidableEq K] (sqrt : K → K)
    (evaluateBSplineBasis : Dbl K → Nat → Nat → List (Dbl K) → Dbl K)
    (solve : Matrix K → List K → Except (Failure K) (List (Dbl K)))
    (hsolve : SolvesExactly solve)
    (interpolationPoints : ControlPoints2D K) (polynomialDegree : Nat)
    (controlPoints : ControlPoints2D (Dbl K)) (knotVector : List (Dbl K))
    (h : interpolateWithBSplineCurve sqrt evaluateBSplineBasis solve interpolationPoints
      polynomialDegree = .ok (controlPoints, knotVector)) :
    ∃ t : List (Dbl K), centripetalParameterPositions sqrt interpolationPoints = .ok t ∧
      ∀ k, k < interpolationPoints.x.length → ∃ tk, t[k]? = some tk ∧
        dblSum interpolationPoints.x.length
            (fun i => Dbl.mul (evaluateBSplineBasis tk i polynomialDegree knotVector)
              (controlPoints.x.getD i Dbl.nonFinite))
          = Dbl.finite (interpolationPoints.x.getD k 0) ∧
        dblSum interpolationPoints.x.length
            (fun i => Dbl.mul (evaluateBSplineBasis tk i polynomialDegree knotVector)
              (controlPoints.y.getD i Dbl.nonFinite))
          = Dbl.finite (interpolationPoints.y.getD k 0) := by
  unfold interpolateWithBSplineCurve at h
  by_cases hlen : interpolationPoints.x.length ≠ interpolationPoints.y.length
  · rw [if_pos hlen] at h; exact Except.noConfusion h
  rw [if_neg hlen] at h
  have hlen2 : interpolationPoints.x.length = interpolationPoints.y.length :=
    not_not.mp hlen
  simp only [bind] at h
  cases ht : centripetalParameterPositions sqrt interpolationPoints with
  | error e => rw [ht, bind_error] at h; exact Except.noConfusion h
  | ok t =>
    rw [ht, bind_ok] at h
    cases hU : knotVectorUsingAveraging t polynomialDegree with
    | error e => rw [hU, bind_error] at h; exact Except.noConfusion h
    | ok U =>
      rw [hU, bind_ok] at h
      cases hN : forLoop 0 interpolationPoints.x.length
          (fun k (N : Matrix K) =>
            forLoop 0 interpolationPoints.x.length
              (fun i (N : Matrix K) =>
                (do
                  let tk ← load t k
                  Matrix.assign N k i (evaluateBSplineBasis tk i polynomialDegree U) :
                  Except (Failure K) (Matrix K)))
              N)
          (Matrix.filled interpolationPoints.x.length interpolationPoints.x.length
            (Dbl.finite 0)) with
      | error e =>
        simp only [bind] at hN
        rw [hN, bind_error] at h; exact Except.noConfusion h
      | ok N =>
        have hentries := collocation_partial evaluateBSplineBasis t polynomialDegree U
          interpolationPoints.x.length _ N hN
        simp only [bind] at hN
        rw [hN, bind_ok] at h
        cases hx : solve N interpolationPoints.x with
        | error e => rw [hx] at h; exact Except.noConfusion h
        | ok cx =>
          rw [hx] at h
          cases hy : solve N interpolationPoints.y with
          | error e => rw [hy] at h; exact Except.noConfusion h
          | ok cy =>
            rw [hy] at h
            have hpair : ((⟨cx, cy⟩ : ControlPoints2D (Dbl K)), U) = (controlPoints, knotVector) :=
              Except.ok.inj h
            have hcp : controlPoints = ⟨cx, cy⟩ := (Prod.mk.inj hpair).1.symm
            have hkv : knotVector = U := (Prod.mk.inj hpair).2.symm
            subst hcp hkv
            refine ⟨t, rfl, ?_⟩
            intro k hk
            obtain ⟨tk, htk, hrow⟩ := hentries k hk
            refine ⟨tk, htk, ?_, ?_⟩
            · rw [← hsolve N interpolationPoints.x cx hx k hk]
              exact dblSum_congr _ _ _ (fun i hi => by rw [hrow i hi])
            · have hk2 : k < interpolationPoints.y.length := by omega
              have := hsolve N interpolationPoints.y cy hy k hk2
              rw [← hlen2] at this
              rw [← this]
              exact dblSum_congr _ _ _ (fun i hi => by rw [hrow i hi])

theorem identitySolve_solvesExactly [Field K] [DecidableEq K] :
    SolvesExactly (identitySolve : Matrix K → List K → Except (Failure K) (List (Dbl K))) := by
  intro A b c h k hk
  unfold identitySolve at h
  by_cases hc : A = [[Dbl.finite 1, Dbl.finite 0], [Dbl.finite 0, Dbl.finite 1]] ∧ b.length = 2
  · rw [if_pos hc] at h
    obtain ⟨hA, hb⟩ := hc
    have hcb : c = b.map Dbl.finite := (Except.ok.inj h).symm
    subst hA hcb
    match b, hb with
    | [b0, b1], _ =>
      have hk2 : k = 0 ∨ k = 1 := by simp at hk; omega
      rcases hk2 with rfl | rfl <;>
        simp [dblSum, List.range_succ, Matrix.entry, Dbl.mul, Dbl.add]
  · rw [if_neg hc] at h
    exact Except.noConfusion h

theorem interpolate_two_points :
    interpolateWithBSplineCurve Real.sqrt linearBasis identitySolve ⟨[1, 2], [5, 5]⟩ 1
      = .ok (⟨[Dbl.finite 1, Dbl.finite 2], [Dbl.finite 5, Dbl.finite 5]⟩,
          [Dbl.finite 0, Dbl.finite 0, Dbl.finite 1, Dbl.finite 1]) := by
  have ht : centripetalParameterPositions Real.sqrt ⟨[1, 2], [5, 5]⟩
      = .ok [Dbl.finite 0, Dbl.finite 1] := by
    rw [centripetal_eq Real.sqrt ⟨[1, 2], [5, 5]⟩ 2 rfl rfl (by norm_num) (by norm_num)]
    norm_num [List.range_succ, parameterAt, chordWeightSum, chordWeight, chordLength,
      Finset.sum_range_succ, Dbl.add, Dbl.div]
  have hU : knotVectorUsingAveraging ([Dbl.finite 0, Dbl.finite 1] : List (Dbl ℝ)) 1
      = .ok [Dbl.finite 0, Dbl.finite 0, Dbl.finite 1, Dbl.finite 1] := by
    rw [knot_eq _ 1 (by simp) (by simp)]
    simp [List.range_succ, knotAt]
  unfold interpolateWithBSplineCurve
  rw [if_neg (by simp)]
  simp only [bind]
  rw [ht, bind_ok, hU, bind_ok]
  simp [forLoop, loopFrom, load, store, Matrix.assign, Matrix.filled, linearBasis,
    identitySolve, bind, Except.bind, pure, Except.pure]

/-- C1 (instance): the points (1,5), (2,5) with the degree 1, the evaluator
`linearBasis` and the solver `identitySolve`, over the real numbers. -/
theorem interpolateWithBSplineCurve_interpolates_witness :
    ∃ t : List (Dbl ℝ), centripetalParameterPositions Real.sqrt ⟨[1, 2], [5, 5]⟩ = .ok t ∧
      ∀ k, k < 2 → ∃ tk, t[k]? = some tk ∧
        dblSum 2
            (fun i => Dbl.mul
              (linearBasis tk i 1 [Dbl.finite 0, Dbl.finite 0, Dbl.finite 1, Dbl.finite 1])
              (([Dbl.finite 1, Dbl.finite 2] : List (Dbl ℝ)).getD i Dbl.nonFinite))
          = Dbl.finite (([1, 2] : List ℝ).getD k 0) ∧
        dblSum 2
            (fun i => Dbl.mul
              (linearBasis tk i 1 [Dbl.finite 0, Dbl.finite 0, Dbl.finite 1, Dbl.finite 1])
              (([Dbl.finite 5, Dbl.finite 5] : List (Dbl ℝ)).getD i Dbl.nonFinite))
          = Dbl.finite (([5, 5] : List ℝ).getD k 0) :=
  interpolateWithBSplineCurve_interpolates Real.sqrt linearBasis identitySolve
    identitySolve_solvesExactly ⟨[1, 2], [5, 5]⟩ 1
    ⟨[Dbl.finite 1, Dbl.finite 2], [Dbl.finite 5, Dbl.finite 5]⟩
    [Dbl.finite 0, Dbl.finite 0, Dbl.finite 1, Dbl.finite 1] interpolate_two_points

/-- C9: when the coordinate sequences differ in length,
`interpolateWithBSplineCurve` fails by throwing its input point sequence,
whatever the degree, the square root, the basis evaluator and the solver are. -/
theorem interpolateWithBSplineCurve_mismatched [Field K] [DecidableEq K] (sqrt : K → K)
    (evaluateBSplineBasis : Dbl K → Nat → Nat → List (Dbl K) → Dbl K)
    (solve : Matrix K → List K → Except (Failure K) (List (Dbl K)))
    (interpolationPoints : ControlPoints2D K) (polynomialDegree : Nat)
    (h : interpolationPoints.x.length ≠ interpolationPoints.y.length) :
    interpolateWithBSplineCurve sqrt evaluateBSplineBasis solve interpolationPoints
        polynomialDegree
      = .error (.thrownPoints interpolationPoints) := by
  unfold interpolateWithBSplineCurve
  exact if_pos h

/-- C9 (instance): 3 x-values and 4 y-values, with a degree that is too high
for the point count and with an evaluator and a solver that are never
consulted. -/
theorem interpolateWithBSplineCurve_mismatched_witness :
    interpolateWithBSplineCurve Real.sqrt (fun _ _ _ _ => Dbl.nonFinite)
        (fun _ _ => .error (.runtime_error "singular")) ⟨[0, 1, 2], [0, 1, 2, 3]⟩ 7
      = .error (.thrownPoints ⟨[0, 1, 2], [0, 1, 2, 3]⟩) :=
  interpolateWithBSplineCurve_mismatched Real.sqrt (fun _ _ _ _ => Dbl.nonFinite)
    (fun _ _ => .error (.runtime_error "singular")) ⟨[0, 1, 2], [0, 1, 2, 3]⟩ 7 (by decide)

end Interpolation

/-! ## Further properties of the three functions -/

section Further

variable {K : Type}

theorem interpolate_unfold [Field K] [DecidableEq K] (sqrt : K → K)
    (evaluateBSplineBasis : Dbl K → Nat → Nat → List (Dbl K) → Dbl K)
    (solve : Matrix K → List K → Except (Failure K) (List (Dbl K)))
    (interpolationPoints : ControlPoints2D K) (polynomialDegree : Nat)
    (hlen : interpolationPoints.x.length = interpolationPoints.y.length) :
    interpolateWithBSplineCurve sqrt evaluateBSplineBasis solve interpolationPoints
        polynomialDegree
      = (centripetalParameterPositions sqrt interpolationPoints).bind (fun t =>
          (knotVectorUsingAveraging t polynomialDegree).bind (fun knotVector =>
            (assembleCollocation evaluateBSplineBasis t polynomialDegree knotVector
                interpolationPoints.x.length).bind (fun N =>
              match solve N interpolationPoints.x with
              | .error e => .error e
              | .ok controlPointsX =>
                match solve N interpolationPoints.y with
                | .error e => .error e
                | .ok controlPointsY =>
                  .ok (⟨controlPointsX, controlPointsY⟩, knotVector)))) := by
  unfold interpolateWithBSplineCurve
  rw [if_neg (not_not.mpr hlen)]
  rfl

theorem centripetal_single [Field K] [DecidableEq K] (sqrt : K → K)
    (points : ControlPoints2D K) (hx : points.x.length = 1) :
    centripetalParameterPositions sqrt points = .ok [Dbl.finite 1] := by
  have e : sizeSub 1 1 = 0 := sizeSub_of_le (Nat.le_refl 1) (by norm_num)
  unfold centripetalParameterPositions
  simp only [hx, e, bind]
  rw [store_of_lt _ (by simp), bind_ok, store_of_lt _ (by simp), bind_ok]
  rfl

theorem centripetal_length [Field K] [DecidableEq K] (sqrt : K → K)
    (points : ControlPoints2D K) (hy : points.y.length = points.x.length)
    (hn : 1 ≤ points.x.length) (hsz : points.x.length < 2 ^ 64) :
    ∃ t : List (Dbl K), centripetalParameterPositions sqrt points = .ok t ∧
      t.length = points.x.length := by
  by_cases h1 : points.x.length = 1
  · exact ⟨_, centripetal_single sqrt points h1, by simp [h1]⟩
  · exact ⟨_, centripetal_eq sqrt points _ rfl hy (by omega) hsz, by simp⟩

theorem row_set_step {α : Type} (n i : Nat) (hi : i < n) (f : Nat → α) (z : α) :
    ((List.range n).map (fun j => if j < i then f j else z)).set i (f i)
      = (List.range n).map (fun j => if j < i + 1 then f j else z) := by
  apply List.ext_getElem?
  intro j
  by_cases hj : j < n
  · by_cases hji : j = i
    · subst hji
      rw [List.getElem?_set_self (by simpa using hj), List.getElem?_map,
        List.getElem?_range hj]
      simp
    · rw [List.getElem?_set_ne (Ne.symm hji), List.getElem?_map, List.getElem?_map,
        List.getElem?_range hj]
      simp only [Option.map_some']
      by_cases h1 : j < i
      · rw [if_pos h1, if_pos (by omega)]
      · rw [if_neg h1, if_neg (by omega)]
  · rw [List.getElem?_eq_none (by simp; omega), List.getElem?_eq_none (by simp; omega)]

theorem assemble_row [Zero K]
    (evaluateBSplineBasis : Dbl K → Nat → Nat → List (Dbl K) → Dbl K)
    (t : List (Dbl K)) (p : Nat) (U : List (Dbl K)) (n k : Nat) (hk : k < n)
    (hlen : n ≤ t.length) (M : Matrix K) (hM : M.length = n)
    (hMk : M[k]? = some (List.replicate n (Dbl.finite 0))) :
    forLoop 0 n
      (fun i (N : Matrix K) =>
        (do
          let tk ← load t k
          Matrix.assign N k i (evaluateBSplineBasis tk i p U) :
          Except (Failure K) (Matrix K)))
      M
      = .ok (M.set k ((List.range n).map
          (fun i => evaluateBSplineBasis (t.getD k Dbl.nonFinite) i p U))) := by
  have htk : t[k]? = some (t.getD k Dbl.nonFinite) := getD_of_getElem? t k _ (by omega)
  obtain ⟨M', hM', hinv⟩ := forLoop_invariant
    (fun i (N : Matrix K) =>
        (do
          let tk ← load t k
          Matrix.assign N k i (evaluateBSplineBasis tk i p U) :
          Except (Failure K) (Matrix K)))
    (fun i (N : Matrix K) => N = M.set k ((List.range n).map
      (fun j => if j < i then evaluateBSplineBasis (t.getD k Dbl.nonFinite) j p U
        else Dbl.finite 0)))
    0 n (Nat.zero_le _) M
    (by
      intro i N _ hi hN
      refine ⟨_, ?_, rfl⟩
      have hrow : N[k]? = some ((List.range n).map
          (fun j => if j < i then evaluateBSplineBasis (t.getD k Dbl.nonFinite) j p U
            else Dbl.finite 0)) := by
        rw [hN, List.getElem?_set_self (by omega)]
      simp only [bind, Matrix.assign]
      rw [load_of_getElem? htk, bind_ok, load_of_getElem? hrow, bind_ok,
        store_of_lt _ (by simpa using hi), bind_ok, store_of_lt _ (by rw [hN]; simp; omega)]
      rw [row_set_step n i hi
        (fun j => evaluateBSplineBasis (t.getD k Dbl.nonFinite) j p U) (Dbl.finite 0), hN,
        List.set_set])
    (by
      apply List.ext_getElem?
      intro j
      by_cases hjk : j = k
      · subst hjk
        rw [hMk, List.getElem?_set_self (by omega)]
        congr 1
        apply List.ext_getElem?
        intro m
        by_cases hm : m < n
        · rw [List.getElem?_replicate, if_pos hm, List.getElem?_map, List.getElem?_range hm]
          simp
        · rw [List.getElem?_eq_none (by simp; omega), List.getElem?_eq_none (by simp; omega)]
      · rw [List.getElem?_set_ne (Ne.symm hjk)])
  rw [hM', hinv]
  congr 2
  apply List.map_congr_left
  intro j hj
  rw [if_pos (by simpa using hj)]

theorem assemble_eq [Zero K]
    (evaluateBSplineBasis : Dbl K → Nat → Nat → List (Dbl K) → Dbl K)
    (t : List (Dbl K)) (p : Nat) (U : List (Dbl K)) (n : Nat) (hlen : n ≤ t.length) :
    assembleCollocation evaluateBSplineBasis t p U n
      = .ok (collocationMatrix evaluateBSplineBasis t p U n) := by
  unfold assembleCollocation
  obtain ⟨N, hN, hinv⟩ := forLoop_invariant
    (fun k (N : Matrix K) =>
      forLoop 0 n
        (fun i (N : Matrix K) =>
          (do
            let tk ← load t k
            Matrix.assign N k i (evaluateBSplineBasis tk i p U) :
            Except (Failure K) (Matrix K)))
        N)
    (fun k (N : Matrix K) => N = (List.range n).map
      (fun j => if j < k then
        (List.range n).map (fun i => evaluateBSplineBasis (t.getD j Dbl.nonFinite) i p U)
        else List.replicate n (Dbl.finite 0)))
    0 n (Nat.zero_le _) (Matrix.filled n n (Dbl.finite 0))
    (by
      intro k N _ hk hN
      refine ⟨_, assemble_row evaluateBSplineBasis t p U n k hk hlen N (by rw [hN]; simp)
        (by rw [hN, List.getElem?_map, List.getElem?_range hk]; simp), ?_⟩
      rw [hN]
      exact row_set_step n k hk
        (fun j => (List.range n).map
          (fun i => evaluateBSplineBasis (t.getD j Dbl.nonFinite) i p U))
        (List.replicate n (Dbl.finite 0)))
    (by
      unfold Matrix.filled
      apply List.ext_getElem?
      intro j
      by_cases hj : j < n
      · rw [List.getElem?_replicate, if_pos hj, List.getElem?_map, List.getElem?_range hj]
        simp
      · rw [List.getElem?_eq_none (by simp; omega), List.getElem?_eq_none (by simp; omega)])
  rw [hN, hinv]
  unfold collocationMatrix
  congr 1
  apply List.map_congr_left
  intro j hj
  rw [if_pos (by simpa using hj)]

theorem knot_error [Field K] [DecidableEq K] (parameterPositions : List (Dbl K)) (p : Nat)
    (hn : 1 ≤ parameterPositions.length) (hsz : parameterPositions.length < 2 ^ 64)
    (hp : p > parameterPositions.length - 1) :
    knotVectorUsingAveraging parameterPositions p = .error (.runtime_error
      ("Polynomial degree " ++ to_string p ++ " is too high for " ++
        to_string parameterPositions.length ++ " interpolation points.")) := by
  have e1 : sizeSub parameterPositions.length 1 = parameterPositions.length - 1 :=
    sizeSub_of_le hn hsz
  unfold knotVectorUsingAveraging
  simp only [e1]
  rw [if_pos hp]

/-- C11: for coordinate sequences of equal length `n ≥ 1` and a degree
`p > n - 1`, `interpolateWithBSplineCurve` fails with the runtime error that
`knotVectorUsingAveraging` raises on the computed parameters, unchanged,
whatever the basis evaluator and the solver are. -/
theorem interpolateWithBSplineCurve_invalid_degree [Field K] [DecidableEq K] (sqrt : K → K)
    (evaluateBSplineBasis : Dbl K → Nat → Nat → List (Dbl K) → Dbl K)
    (solve : Matrix K → List K → Except (Failure K) (List (Dbl K)))
    (interpolationPoints : ControlPoints2D K) (polynomialDegree : Nat)
    (hy : interpolationPoints.y.length = interpolationPoints.x.length)
    (hn : 1 ≤ interpolationPoints.x.length) (hsz : interpolationPoints.x.length < 2 ^ 64)
    (hp : polynomialDegree > interpolationPoints.x.length - 1) :
    ∃ t : List (Dbl K), centripetalParameterPositions sqrt interpolationPoints = .ok t ∧
      knotVectorUsingAveraging t polynomialDegree = .error (.runtime_error
        ("Polynomial degree " ++ to_string polynomialDegree ++ " is too high for " ++
          to_string interpolationPoints.x.length ++ " interpolation points.")) ∧
      interpolateWithBSplineCurve sqrt evaluateBSplineBasis solve interpolationPoints
          polynomialDegree
        = .error (.runtime_error
          ("Polynomial degree " ++ to_string polynomialDegree ++ " is too high for " ++
            to_string interpolationPoints.x.length ++ " interpolation points.")) := by
  obtain ⟨t, ht, hlen⟩ := centripetal_length sqrt interpolationPoints hy hn hsz
  have hk := knot_error t polynomialDegree (by omega) (by omega) (by omega)
  rw [hlen] at hk
  refine ⟨t, ht, hk, ?_⟩
  rw [interpolate_unfold sqrt evaluateBSplineBasis solve interpolationPoints polynomialDegree
    hy.symm, ht, bind_ok, hk, bind_error]

/-- C11 (instance): 5 points and the degree 5, with an evaluator and a solver
that would give results if they were consulted. -/
theorem interpolateWithBSplineCurve_invalid_degree_witness :
    interpolateWithBSplineCurve Real.sqrt (fun _ _ _ _ => Dbl.finite 1)
        (fun _ b => .ok (b.map Dbl.finite)) ⟨[0, 1, 2, 3, 4], [0, 0, 0, 0, 0]⟩ 5
      = .error (.runtime_error "Polynomial degree 5 is too high for 5 interpolation points.") :=
  (interpolateWithBSplineCurve_invalid_degree Real.sqrt (fun _ _ _ _ => Dbl.finite 1)
    (fun _ b => .ok (b.map Dbl.finite)) ⟨[0, 1, 2, 3, 4], [0, 0, 0, 0, 0]⟩ 5 rfl
    (by simp) (by simp) (by simp)).elim (fun _ h => h.2.2)

theorem assemble_ok_length [Zero K]
    (evaluateBSplineBasis : Dbl K → Nat → Nat → List (Dbl K) → Dbl K)
    (t : List (Dbl K)) (p : Nat) (U : List (Dbl K)) (n : Nat) (N : Matrix K)
    (h : assembleCollocation evaluateBSplineBasis t p U n = .ok N) : n ≤ t.length := by
  by_contra hlt
  obtain ⟨tk, htk, -⟩ := collocation_partial evaluateBSplineBasis t p U n _ N h t.length
    (by omega)
  rw [List.getElem?_eq_none (Nat.le_refl _)] at htk
  exact Option.noConfusion htk

theorem getD_map_range {α : Type} (n k : Nat) (hk : k < n) (f : Nat → α) (d : α) :
    ((List.range n).map f).getD k d = f k := by
  rw [List.getD_eq_getElem?_getD, List.getElem?_map, List.getElem?_range hk]
  rfl

theorem collocationMatrix_entry
    (evaluateBSplineBasis : Dbl K → Nat → Nat → List (Dbl K) → Dbl K)
    (t : List (Dbl K)) (p : Nat) (U : List (Dbl K)) (n k i : Nat) (hk : k < n) (hi : i < n) :
    Matrix.entry (collocationMatrix evaluateBSplineBasis t p U n) k i
      = evaluateBSplineBasis (t.getD k Dbl.nonFinite) i p U := by
  unfold Matrix.entry collocationMatrix
  rw [getD_map_range n k hk, getD_map_range n i hi]

/-- C13: whenever `interpolateWithBSplineCurve` succeeds, its result is the pair
of `solve(N, xs)` and `solve(N, ys)`, together with the knot vector `U`, where
`t` is the result of `centripetalParameterPositions`, `U` is the result of
`knotVectorUsingAveraging` on `t`, and `N` is the assembled `n × n` matrix,
whose entry `(k, i)` is `evaluate(t[k], i, p, U)`. -/
theorem interpolateWithBSplineCurve_result [Field K] [DecidableEq K] (sqrt : K → K)
    (evaluateBSplineBasis : Dbl K → Nat → Nat → List (Dbl K) → Dbl K)
    (solve : Matrix K → List K → Except (Failure K) (List (Dbl K)))
    (interpolationPoints : ControlPoints2D K) (polynomialDegree : Nat)
    (controlPoints : ControlPoints2D (Dbl K)) (knotVector : List (Dbl K))
    (h : interpolateWithBSplineCurve sqrt evaluateBSplineBasis solve interpolationPoints
      polynomialDegree = .ok (controlPoints, knotVector)) :
    ∃ (t : List (Dbl K)) (N : Matrix K),
      centripetalParameterPositions sqrt interpolationPoints = .ok t ∧
      knotVectorUsingAveraging t polynomialDegree = .ok knotVector ∧
      assembleCollocation evaluateBSplineBasis t polynomialDegree knotVector
        interpolationPoints.x.length = .ok N ∧
      N = collocationMatrix evaluateBSplineBasis t polynomialDegree knotVector
        interpolationPoints.x.length ∧
      (∀ k i, k < interpolationPoints.x.length → i < interpolationPoints.x.length →
        ∃ tk, t[k]? = some tk ∧
          Matrix.entry N k i = evaluateBSplineBasis tk i polynomialDegree knotVector) ∧
      solve N interpolationPoints.x = .ok controlPoints.x ∧
      solve N interpolationPoints.y = .ok controlPoints.y := by
  by_cases hlen : interpolationPoints.x.length ≠ interpolationPoints.y.length
  · unfold interpolateWithBSplineCurve at h
    rw [if_pos hlen] at h; exact Except.noConfusion h
  rw [interpolate_unfold sqrt evaluateBSplineBasis solve interpolationPoints polynomialDegree
    (not_not.mp hlen)] at h
  cases ht : centripetalParameterPositions sqrt interpolationPoints with
  | error e => rw [ht, bind_error] at h; exact Except.noConfusion h
  | ok t =>
    rw [ht, bind_ok] at h
    cases hU : knotVectorUsingAveraging t polynomialDegree with
    | error e => rw [hU, bind_error] at h; exact Except.noConfusion h
    | ok U =>
      rw [hU, bind_ok] at h
      cases hN : assembleCollocation evaluateBSplineBasis t polynomialDegree U
          interpolationPoints.x.length with
      | error e => rw [hN, bind_error] at h; exact Except.noConfusion h
      | ok N =>
        rw [hN, bind_ok] at h
        have hle := assemble_ok_length evaluateBSplineBasis t polynomialDegree U _ N hN
        have hNeq : N = collocationMatrix evaluateBSplineBasis t polynomialDegree U
            interpolationPoints.x.length :=
          Except.ok.inj (hN.symm.trans (assemble_eq evaluateBSplineBasis t polynomialDegree U
            _ hle))
        cases hx : solve N interpolationPoints.x with
        | error e => rw [hx] at h; exact Except.noConfusion h
        | ok cx =>
          rw [hx] at h
          cases hy : solve N interpolationPoints.y with
          | error e => rw [hy] at h; exact Except.noConfusion h
          | ok cy =>
            rw [hy] at h
            have hpair : ((⟨cx, cy⟩ : ControlPoints2D (Dbl K)), U) = (controlPoints, knotVector) :=
              Except.ok.inj h
            have hcp : controlPoints = ⟨cx, cy⟩ := (Prod.mk.inj hpair).1.symm
            have hkv : knotVector = U := (Prod.mk.inj hpair).2.symm
            subst hcp hkv
            refine ⟨t, N, rfl, hU, hN, hNeq, ?_, hx, hy⟩
            intro k i hk hi
            refine ⟨t.getD k Dbl.nonFinite, getD_of_getElem? t k _ (by omega), ?_⟩
            rw [hNeq]
            exact collocationMatrix_entry evaluateBSplineBasis t polynomialDegree knotVector
              _ k i hk hi

/-- C13 (instance): the points (1,5), (2,5) with the degree 1, the evaluator
`linearBasis` and the solver `identitySolve`, over the real numbers. -/
theorem interpolateWithBSplineCurve_result_witness :
    ∃ (t : List (Dbl ℝ)) (N : Matrix ℝ),
      centripetalParameterPositions Real.sqrt ⟨[1, 2], [5, 5]⟩ = .ok t ∧
      knotVectorUsingAveraging t 1
        = .ok [Dbl.finite 0, Dbl.finite 0, Dbl.finite 1, Dbl.finite 1] ∧
      assembleCollocation linearBasis t 1
        [Dbl.finite 0, Dbl.finite 0, Dbl.finite 1, Dbl.finite 1] 2 = .ok N ∧
      N = collocationMatrix linearBasis t 1
        [Dbl.finite 0, Dbl.finite 0, Dbl.finite 1, Dbl.finite 1] 2 ∧
      (∀ k i, k < 2 → i < 2 → ∃ tk, t[k]? = some tk ∧
        Matrix.entry N k i
          = linearBasis tk i 1 [Dbl.finite 0, Dbl.finite 0, Dbl.finite 1, Dbl.finite 1]) ∧
      identitySolve N [1, 2] = .ok [Dbl.finite 1, Dbl.finite 2] ∧
      identitySolve N [5, 5] = .ok [Dbl.finite 5, Dbl.finite 5] :=
  interpolateWithBSplineCurve_result Real.sqrt linearBasis identitySolve ⟨[1, 2], [5, 5]⟩ 1
    ⟨[Dbl.finite 1, Dbl.finite 2], [Dbl.finite 5, Dbl.finite 5]⟩
    [Dbl.finite 0, Dbl.finite 0, Dbl.finite 1, Dbl.finite 1] interpolate_two_points

/-- C14 (counterexample): a solver may throw a `std::runtime_error`, the type of
the invalid-degree error.  With a solver that throws one carrying the text of an
invalid-degree message, the call with the valid degree 1 on two points fails
with the very error value of the call with the invalid degree 2: the failure
from the solver is not distinct from the invalid-degree failure. -/
theorem interpolateWithBSplineCurve_solver_error_not_distinct :
    interpolateWithBSplineCurve Real.sqrt linearBasis
        (fun _ _ => .error
          (.runtime_error "Polynomial degree 2 is too high for 2 interpolation points."))
        ⟨[1, 2], [5, 5]⟩ 1
      = .error (.runtime_error "Polynomial degree 2 is too high for 2 interpolation points.") ∧
    interpolateWithBSplineCurve Real.sqrt linearBasis identitySolve ⟨[1, 2], [5, 5]⟩ 2
      = .error (.runtime_error "Polynomial degree 2 is too high for 2 interpolation points.") := by
  have ht : centripetalParameterPositions Real.sqrt ⟨[1, 2], [5, 5]⟩
      = .ok [Dbl.finite 0, Dbl.finite 1] := by
    rw [centripetal_eq Real.sqrt ⟨[1, 2], [5, 5]⟩ 2 rfl rfl (by norm_num) (by norm_num)]
    norm_num [List.range_succ, parameterAt, chordWeightSum, chordWeight, chordLength,
      Finset.sum_range_succ, Dbl.add, Dbl.div]
  constructor
  · have hU := knot_eq ([Dbl.finite 0, Dbl.finite 1] : List (Dbl ℝ)) 1 (by simp) (by simp)
    rw [interpolate_unfold _ _ _ _ _ rfl, ht, bind_ok, hU, bind_ok,
      assemble_eq linearBasis _ 1 _ _ (by simp), bind_ok]
  · have hU := knot_error ([Dbl.finite 0, Dbl.finite 1] : List (Dbl ℝ)) 2 (by simp) (by simp)
      (by simp)
    rw [interpolate_unfold _ _ _ _ _ rfl, ht, bind_ok, hU, bind_error]
    rfl

/-- C14 (amended): for coordinate sequences of equal length `n ≥ 1` and a degree
`p ≤ n - 1`, the parameters, the knot vector and the collocation matrix `N` are
computed, and a failure of the solver on `N`, for the x right-hand side or for
the y right-hand side, makes `interpolateWithBSplineCurve` fail with the very
error of the solver, unchanged, instead of a result. -/
theorem interpolateWithBSplineCurve_solver_failure [Field K] [DecidableEq K] (sqrt : K → K)
    (evaluateBSplineBasis : Dbl K → Nat → Nat → List (Dbl K) → Dbl K)
    (solve : Matrix K → List K → Except (Failure K) (List (Dbl K)))
    (interpolationPoints : ControlPoints2D K) (polynomialDegree : Nat)
    (hy : interpolationPoints.y.length = interpolationPoints.x.length)
    (hn : 1 ≤ interpolationPoints.x.length) (hsz : interpolationPoints.x.length < 2 ^ 63)
    (hp : polynomialDegree ≤ interpolationPoints.x.length - 1) :
    ∃ (t U : List (Dbl K)),
      centripetalParameterPositions sqrt interpolationPoints = .ok t ∧
      knotVectorUsingAveraging t polynomialDegree = .ok U ∧
      assembleCollocation evaluateBSplineBasis t polynomialDegree U
          interpolationPoints.x.length
        = .ok (collocationMatrix evaluateBSplineBasis t polynomialDegree U
            interpolationPoints.x.length) ∧
      (∀ e,
        solve (collocationMatrix evaluateBSplineBasis t polynomialDegree U
          interpolationPoints.x.length) interpolationPoints.x = .error e →
        interpolateWithBSplineCurve sqrt evaluateBSplineBasis solve interpolationPoints
          polynomialDegree = .error e) ∧
      (∀ controlPointsX e,
        solve (collocationMatrix evaluateBSplineBasis t polynomialDegree U
          interpolationPoints.x.length) interpolationPoints.x = .ok controlPointsX →
        solve (collocationMatrix evaluateBSplineBasis t polynomialDegree U
          interpolationPoints.x.length) interpolationPoints.y = .error e →
        interpolateWithBSplineCurve sqrt evaluateBSplineBasis solve interpolationPoints
          polynomialDegree = .error e) := by
  obtain ⟨t, ht, hlen⟩ := centripetal_length sqrt interpolationPoints hy hn (by omega)
  have hU := knot_eq t polynomialDegree (by omega) (by omega)
  have hN := assemble_eq evaluateBSplineBasis t polynomialDegree
    ((List.range (t.length + polynomialDegree + 1)).map (knotAt t polynomialDegree))
    interpolationPoints.x.length (by omega)
  refine ⟨t, _, ht, hU, hN, ?_, ?_⟩
  · intro e hx
    rw [interpolate_unfold sqrt evaluateBSplineBasis solve interpolationPoints polynomialDegree
      hy.symm, ht, bind_ok, hU, bind_ok, hN, bind_ok]
    simp only [hx]
  · intro cx e hx hyy
    rw [interpolate_unfold sqrt evaluateBSplineBasis solve interpolationPoints polynomialDegree
      hy.symm, ht, bind_ok, hU, bind_ok, hN, bind_ok]
    simp only [hx, hyy]

/-- C14 (amended, instance): the points (1,5), (2,5) with the degree 1 and a
solver that fails on every system. -/
theorem interpolateWithBSplineCurve_solver_failure_witness :
    interpolateWithBSplineCurve Real.sqrt linearBasis
        (fun _ _ => .error (.runtime_error "singular matrix")) ⟨[1, 2], [5, 5]⟩ 1
      = .error (.runtime_error "singular matrix") :=
  (interpolateWithBSplineCurve_solver_failure Real.sqrt linearBasis
    (fun _ _ => .error (.runtime_error "singular matrix")) ⟨[1, 2], [5, 5]⟩ 1 rfl
    (by simp) (by simp) (by simp)).elim
    (fun _ h => h.elim (fun _ h2 => h2.2.2.2.1 (.runtime_error "singular matrix") rfl))

theorem halfOpenBasis_halfOpen [LinearOrderedField K] :
    HalfOpenDegreeZero (halfOpenBasis : Dbl K → Nat → Nat → List (Dbl K) → Dbl K) := by
  intro x a b i U ha hb
  unfold halfOpenBasis
  rw [ha, hb]

theorem scalarSolve_solvesScalar [Field K] [DecidableEq K] :
    SolvesScalar (scalarSolve : Matrix K → List K → Except (Failure K) (List (Dbl K))) := by
  intro a b ha
  unfold scalarSolve
  simp only [if_neg ha]

theorem knot_single [Field K] [DecidableEq K] :
    knotVectorUsingAveraging ([Dbl.finite 1] : List (Dbl K)) 0
      = .ok [Dbl.finite 0, Dbl.finite 1] := by
  rw [knot_eq _ 0 (by simp) (by simp)]
  simp [List.range_succ, knotAt]

theorem interpolate_single [Field K] [DecidableEq K] (sqrt : K → K)
    (evaluateBSplineBasis : Dbl K → Nat → Nat → List (Dbl K) → Dbl K)
    (solve : Matrix K → List K → Except (Failure K) (List (Dbl K))) (x0 y0 : K) :
    interpolateWithBSplineCurve sqrt evaluateBSplineBasis solve ⟨[x0], [y0]⟩ 0
      = match solve [[evaluateBSplineBasis (Dbl.finite 1) 0 0 [Dbl.finite 0, Dbl.finite 1]]]
          [x0] with
        | .error e => .error e
        | .ok controlPointsX =>
          match solve
            [[evaluateBSplineBasis (Dbl.finite 1) 0 0 [Dbl.finite 0, Dbl.finite 1]]]
            [y0] with
          | .error e => .error e
          | .ok controlPointsY =>
            .ok (⟨controlPointsX, controlPointsY⟩, [Dbl.finite 0, Dbl.finite 1]) := by
  rw [interpolate_unfold sqrt evaluateBSplineBasis solve ⟨[x0], [y0]⟩ 0 rfl,
    centripetal_single sqrt ⟨[x0], [y0]⟩ rfl, bind_ok, knot_single, bind_ok,
    assemble_eq evaluateBSplineBasis _ 0 _ _ (by simp), bind_ok]
  rfl

/-- C12 (counterexample): for the single point (3, 4) and the degree 0 the
parameter of the point is 1, the last knot, where the basis function of the
half-open convention is 0; with the evaluator `halfOpenBasis` and the solver
`scalarSolve`, which meet the two contracts, the matrix is singular and the call
fails. -/
theorem interpolateWithBSplineCurve_half_open_fails :
    HalfOpenDegreeZero (halfOpenBasis : Dbl ℝ → Nat → Nat → List (Dbl ℝ) → Dbl ℝ) ∧
    SolvesScalar (scalarSolve : Matrix ℝ → List ℝ → Except (Failure ℝ) (List (Dbl ℝ))) ∧
    centripetalParameterPositions Real.sqrt ⟨[3], [4]⟩ = .ok [Dbl.finite 1] ∧
    halfOpenBasis (Dbl.finite (1 : ℝ)) 0 0 [Dbl.finite 0, Dbl.finite 1] = Dbl.finite 0 ∧
    interpolateWithBSplineCurve Real.sqrt halfOpenBasis scalarSolve ⟨[3], [4]⟩ 0
      = .error (.runtime_error "singular matrix") := by
  have hev : halfOpenBasis (Dbl.finite (1 : ℝ)) 0 0 [Dbl.finite 0, Dbl.finite 1]
      = Dbl.finite 0 := by
    simp [halfOpenBasis]
  refine ⟨halfOpenBasis_halfOpen, scalarSolve_solvesScalar,
    centripetal_single Real.sqrt ⟨[3], [4]⟩ rfl, hev, ?_⟩
  rw [interpolate_single, hev]
  simp [scalarSolve]

/-- C12 (amended): for a single point `(x0, y0)` and the degree 0, the parameter
of the point is 1 and the knot vector is 0, 1; when the basis evaluator gives the
value 1 at the parameter 1 for the function 0 on these knots, and the solver
returns the solution of a nonsingular system of size 1, the call returns the
knot vector 0, 1 and the one control point `(x0, y0)`. -/
theorem interpolateWithBSplineCurve_single_point [Field K] [DecidableEq K] (sqrt : K → K)
    (evaluateBSplineBasis : Dbl K → Nat → Nat → List (Dbl K) → Dbl K)
    (solve : Matrix K → List K → Except (Failure K) (List (Dbl K))) (x0 y0 : K)
    (hev : evaluateBSplineBasis (Dbl.finite 1) 0 0 [Dbl.finite 0, Dbl.finite 1]
      = Dbl.finite 1)
    (hsolve : SolvesScalar solve) :
    centripetalParameterPositions sqrt ⟨[x0], [y0]⟩ = .ok [Dbl.finite 1] ∧
    knotVectorUsingAveraging ([Dbl.finite 1] : List (Dbl K)) 0
      = .ok [Dbl.finite 0, Dbl.finite 1] ∧
    interpolateWithBSplineCurve sqrt evaluateBSplineBasis solve ⟨[x0], [y0]⟩ 0
      = .ok (⟨[Dbl.finite x0], [Dbl.finite y0]⟩, [Dbl.finite 0, Dbl.finite 1]) := by
  refine ⟨centripetal_single sqrt ⟨[x0], [y0]⟩ rfl, knot_single, ?_⟩
  have hx := hsolve 1 x0 one_ne_zero
  have hy := hsolve 1 y0 one_ne_zero
  rw [div_one] at hx hy
  rw [interpolate_single, hev]
  simp only [hx, hy]

/-- C12 (amended, instance): the point (3, 4) with the evaluator that is 1
everywhere (the function of degree 0 on the closed interval from 0 to 1) and the
solver `scalarSolve`. -/
theorem interpolateWithBSplineCurve_single_point_witness :
    centripetalParameterPositions Real.sqrt ⟨[3], [4]⟩ = .ok [Dbl.finite 1] ∧
    knotVectorUsingAveraging ([Dbl.finite 1] : List (Dbl ℝ)) 0
      = .ok [Dbl.finite 0, Dbl.finite 1] ∧
    interpolateWithBSplineCurve Real.sqrt (fun _ _ _ _ => Dbl.finite 1) scalarSolve
        ⟨[3], [4]⟩ 0
      = .ok (⟨[Dbl.finite 3], [Dbl.finite 4]⟩, [Dbl.finite 0, Dbl.finite 1]) :=
  interpolateWithBSplineCurve_single_point Real.sqrt (fun _ _ _ _ => Dbl.finite 1)
    scalarSolve 3 4 rfl scalarSolve_solvesScalar

theorem loopFrom_error {σ ε : Type} (body : Nat → σ → Except ε σ) (count i : Nat) (s : σ)
    (e : ε) (h : body i s = .error e) : loopFrom body (count + 1) i s = .error e := by
  simp only [loopFrom, h]

theorem forLoop_error {σ ε : Type} (body : Nat → σ → Except ε σ) (lo hi : Nat) (s : σ)
    (e : ε) (hlt : lo < hi) (h : body lo s = .error e) : forLoop lo hi body s = .error e := by
  unfold forLoop
  obtain ⟨c, hc⟩ : ∃ c, hi - lo = c + 1 := ⟨hi - lo - 1, by omega⟩
  rw [hc]
  exact loopFrom_error body c lo s e h

theorem forLoop_empty {σ ε : Type} (body : Nat → σ → Except ε σ) (lo hi : Nat) (s : σ)
    (hle : hi ≤ lo) : forLoop lo hi body s = .ok s := by
  unfold forLoop
  have e : hi - lo = 0 := by omega
  rw [e]
  rfl

theorem knot_empty_out_of_range [Field K] [DecidableEq K] (p : Nat) (hp : p < 2 ^ 64 - 1) :
    knotVectorUsingAveraging ([] : List (Dbl K)) p = .error .outOfRange := by
  have e1 : sizeSub 0 1 = 2 ^ 64 - 1 := by simp only [sizeSub, SIZE_MOD]; omega
  have e2 : sizeSub (sizeSub 0 p) 1 = 2 ^ 64 - 1 - p := by
    simp only [sizeSub, SIZE_MOD]; omega
  have e3 : sizeAdd p 1 = p + 1 := sizeAdd_of_lt (by omega)
  have e4 : sizeAdd 0 p = p := by rw [sizeAdd_of_lt (by omega)]; omega
  unfold knotVectorUsingAveraging
  simp only [List.length_nil, e1, e2, e3, e4, bind]
  rw [if_neg (by omega)]
  have hbody : ((forLoop 1 (p + 1)
        (fun j (sum : Dbl K) =>
          (load ([] : List (Dbl K)) (sizeAdd 0 j) : Except (Failure K) (Dbl K)).bind
            (fun v => pure (Dbl.add sum v)))
        (Dbl.finite 0)).bind
      (fun sum => store (List.replicate (p + 1) (Dbl.finite 0)) (sizeAdd p 1)
        (Dbl.div sum (p : K))) : Except (Failure K) (List (Dbl K))) = .error .outOfRange := by
    by_cases hp0 : p = 0
    · subst hp0
      rw [forLoop_empty _ 1 (0 + 1) _ (by omega), bind_ok]
      have e5 : sizeAdd 0 1 = 1 := sizeAdd_of_lt (by omega)
      rw [e5]
      unfold store
      rw [if_neg (by simp)]
    · rw [forLoop_error _ 1 (p + 1) _ Failure.outOfRange (by omega) (by
        have e5 : sizeAdd 0 1 = 1 := sizeAdd_of_lt (by omega)
        rw [e5]
        rfl), bind_error]
  rw [forLoop_error _ 0 (2 ^ 64 - 1 - p) _ Failure.outOfRange (by omega) (by
    rw [e4]
    exact hbody), bind_error]

theorem knot_empty_max_degree [Field K] [DecidableEq K] :
    knotVectorUsingAveraging ([] : List (Dbl K)) (2 ^ 64 - 1) = .ok [] := by
  have e1 : sizeSub 0 1 = 2 ^ 64 - 1 := by simp only [sizeSub, SIZE_MOD]; omega
  have e2 : sizeSub (sizeSub 0 (2 ^ 64 - 1)) 1 = 0 := by
    simp only [sizeSub, SIZE_MOD]; omega
  have e3 : sizeAdd (2 ^ 64 - 1) 1 = 0 := by simp only [sizeAdd, SIZE_MOD]; omega
  have e4 : sizeAdd 0 (2 ^ 64 - 1) = 2 ^ 64 - 1 := by simp only [sizeAdd, SIZE_MOD]; omega
  unfold knotVectorUsingAveraging
  simp only [List.length_nil, e1, e2, e3, e4, bind]
  rw [if_neg (by omega), forLoop_empty _ 0 0 _ (Nat.le_refl _), bind_ok,
    forLoop_empty _ 0 0 _ (Nat.le_refl _), bind_ok]
  rfl

/-- C16 (code at the failing inputs): for the empty parameter sequence the guard
compares the degree with `0 - 1`, which is `2 ^ 64 - 1` for a `size_t`, so no
degree `p` below `2 ^ 64` raises the runtime error: for `p < 2 ^ 64 - 1` the
first loop accesses a vector beyond its size, and for `p = 2 ^ 64 - 1` an empty
knot vector is returned. -/
theorem knotVectorUsingAveraging_empty [Field K] [DecidableEq K] (p : Nat)
    (hp : p < 2 ^ 64) :
    (∀ message, knotVectorUsingAveraging ([] : List (Dbl K)) p
      ≠ .error (.runtime_error message)) ∧
    (p < 2 ^ 64 - 1 →
      knotVectorUsingAveraging ([] : List (Dbl K)) p = .error .outOfRange) ∧
    (p = 2 ^ 64 - 1 → knotVectorUsingAveraging ([] : List (Dbl K)) p = .ok []) := by
  refine ⟨?_, knot_empty_out_of_range p, ?_⟩
  · intro message h
    by_cases hlt : p < 2 ^ 64 - 1
    · rw [knot_empty_out_of_range p hlt] at h
      exact Failure.noConfusion (Except.error.inj h)
    · have hpe : p = 2 ^ 64 - 1 := by omega
      rw [hpe, knot_empty_max_degree] at h
      exact Except.noConfusion h
  · intro hpe
    rw [hpe]
    exact knot_empty_max_degree

/-- C16 (instance): the empty parameter sequence and the degree 0. -/
theorem knotVectorUsingAveraging_empty_witness :
    knotVectorUsingAveraging ([] : List (Dbl ℚ)) 0 = .error .outOfRange :=
  (knotVectorUsingAveraging_empty 0 (by norm_num)).2.1 (by norm_num)

/-- C15 (code at the failing input): for the parameters 0, 1/2, 1 and the degree
0 the builder divides the empty sum 0 by the degree 0 for each of the two
interior knots, which are therefore not numbers. -/
theorem knotVectorUsingAveraging_degree_zero :
    knotVectorUsingAveraging
        ([Dbl.finite 0, Dbl.finite (1 / 2), Dbl.finite 1] : List (Dbl ℚ)) 0
      = .ok [Dbl.finite 0, Dbl.nonFinite, Dbl.nonFinite, Dbl.finite 1] := by
  rw [knot_eq _ 0 (by simp) (by simp)]
  simp [List.range_succ, knotAt, parameterSum, Dbl.div]

theorem centripetal_finite_eq [LinearOrderedField K] (sqrt : K → K)
    (hnn : ∀ x, 0 ≤ sqrt x) (hpos : ∀ x, 0 < x → 0 < sqrt x)
    (points : ControlPoints2D K) (hy : points.y.length = points.x.length)
    (hn : 2 ≤ points.x.length) (hsz : points.x.length < 2 ^ 64)
    (hnc : ¬ AllCoincident points) :
    centripetalParameterPositions sqrt points
      = .ok (((List.range points.x.length).map (fun k => chordWeightSum sqrt points k /
          chordWeightSum sqrt points (points.x.length - 1))).map Dbl.finite) := by
  have hS := chordWeightSum_pos sqrt hnn hpos points hnc
  rw [centripetal_eq sqrt points _ rfl hy hn hsz, List.map_map]
  congr 1
  apply List.map_congr_left
  intro k _
  exact parameterAt_of_ne_zero sqrt points (ne_of_gt hS) k

theorem chordWeight_of_equal [Field K] (sqrt : K → K) (h0 : sqrt 0 = 0)
    (points : ControlPoints2D K) (i : Nat) (h : pointAt points i = pointAt points (i + 1)) :
    chordWeight sqrt points i = 0 := by
  simp only [pointAt, Prod.mk.injEq] at h
  unfold chordWeight chordLength
  rw [h.1, h.2]
  simp [h0]

theorem chordWeightSum_nonneg [LinearOrderedField K] (sqrt : K → K) (hnn : ∀ x, 0 ≤ sqrt x)
    (points : ControlPoints2D K) (k : Nat) : 0 ≤ chordWeightSum sqrt points k :=
  Finset.sum_nonneg (fun j _ => chordWeight_nonneg sqrt hnn points j)

theorem chordWeightSum_mono [LinearOrderedField K] (sqrt : K → K) (hnn : ∀ x, 0 ≤ sqrt x)
    (points : ControlPoints2D K) (k m : Nat) (hkm : k ≤ m) :
    chordWeightSum sqrt points k ≤ chordWeightSum sqrt points m := by
  unfold chordWeightSum
  apply Finset.sum_le_sum_of_subset_of_nonneg
  · intro j hj
    have := Finset.mem_range.mp hj
    exact Finset.mem_range.mpr (by omega)
  · intro j _ _
    exact chordWeight_nonneg sqrt hnn points j

theorem getElem?_map_range {α : Type} (n k : Nat) (f : Nat → α) (a : α)
    (h : ((List.range n).map f)[k]? = some a) : k < n ∧ a = f k := by
  have hk : k < n := by
    have := (List.getElem?_eq_some_iff.mp h).1
    simpa using this
  rw [List.getElem?_map, List.getElem?_range hk] at h
  exact ⟨hk, (Option.some.inj h).symm⟩

/-- C18 (amended): in exact arithmetic, for at least two points with coordinate
sequences of equal length that are not all coincident, the sequence returned by
`centripetalParameterPositions` consists of finite values, is non-decreasing,
has all its values between 0 and 1, and increases strictly from the entry `i`
to the entry `i + 1` exactly when the points `i` and `i + 1` differ. -/
theorem centripetalParameterPositions_monotone [LinearOrderedField K] (sqrt : K → K)
    (hnn : ∀ x, 0 ≤ sqrt x) (hpos : ∀ x, 0 < x → 0 < sqrt x) (h0 : sqrt 0 = 0)
    (points : ControlPoints2D K) (hy : points.y.length = points.x.length)
    (hn : 2 ≤ points.x.length) (hsz : points.x.length < 2 ^ 64)
    (hnc : ¬ AllCoincident points) :
    ∃ T : List K,
      centripetalParameterPositions sqrt points = .ok (T.map Dbl.finite) ∧
      T.length = points.x.length ∧
      (∀ i a b, T[i]? = some a → T[i + 1]? = some b → a ≤ b) ∧
      (∀ (i : Nat) a, T[i]? = some a → 0 ≤ a ∧ a ≤ 1) ∧
      (∀ i a b, T[i]? = some a → T[i + 1]? = some b →
        (a < b ↔ pointAt points i ≠ pointAt points (i + 1))) := by
  have hS := chordWeightSum_pos sqrt hnn hpos points hnc
  refine ⟨_, centripetal_finite_eq sqrt hnn hpos points hy hn hsz hnc, by simp, ?_, ?_, ?_⟩
  · intro i a b ha hb
    obtain ⟨-, rfl⟩ := getElem?_map_range _ _ _ _ ha
    obtain ⟨-, rfl⟩ := getElem?_map_range _ _ _ _ hb
    exact div_le_div_of_nonneg_right (chordWeightSum_mono sqrt hnn points i (i + 1) (by omega))
      (le_of_lt hS)
  · intro i a ha
    obtain ⟨hi, rfl⟩ := getElem?_map_range _ _ _ _ ha
    exact ⟨div_nonneg (chordWeightSum_nonneg sqrt hnn points i) (le_of_lt hS),
      (div_le_one hS).mpr (chordWeightSum_mono sqrt hnn points i _ (by omega))⟩
  · intro i a b ha hb
    obtain ⟨-, rfl⟩ := getElem?_map_range _ _ _ _ ha
    obtain ⟨-, rfl⟩ := getElem?_map_range _ _ _ _ hb
    have hsucc : chordWeightSum sqrt points (i + 1)
        = chordWeightSum sqrt points i + chordWeight sqrt points i := by
      unfold chordWeightSum
      rw [Finset.sum_range_succ]
    constructor
    · intro hlt heq
      rw [hsucc, chordWeight_of_equal sqrt h0 points i heq, add_zero] at hlt
      exact lt_irrefl _ hlt
    · intro hne
      apply div_lt_div_of_pos_right _ hS
      rw [hsucc]
      exact lt_add_of_pos_right _ (chordWeight_pos sqrt hpos points i hne)

/-- C18 (amended, instance): the points (0,0), (0,0), (1,0) in the exact
arithmetic of the real numbers. -/
theorem centripetalParameterPositions_monotone_witness :
    ∃ T : List ℝ,
      centripetalParameterPositions Real.sqrt ⟨[0, 0, 1], [0, 0, 0]⟩
        = .ok (T.map Dbl.finite) ∧
      T.length = 3 ∧
      (∀ i a b, T[i]? = some a → T[i + 1]? = some b → a ≤ b) ∧
      (∀ (i : Nat) a, T[i]? = some a → 0 ≤ a ∧ a ≤ 1) ∧
      (∀ i a b, T[i]? = some a → T[i + 1]? = some b →
        (a < b ↔ pointAt (⟨[0, 0, 1], [0, 0, 0]⟩ : ControlPoints2D ℝ) i
          ≠ pointAt ⟨[0, 0, 1], [0, 0, 0]⟩ (i + 1))) :=
  centripetalParameterPositions_monotone Real.sqrt Real.sqrt_nonneg
    (fun _ h => Real.sqrt_pos.mpr h) Real.sqrt_zero ⟨[0, 0, 1], [0, 0, 0]⟩ rfl
    (by simp) (by simp)
    (fun h => by
      have e := h 0 2 (by simp) (by simp)
      simp [pointAt, Prod.ext_iff] at e)

theorem strict_of_adjacent [LinearOrderedField K] (T : List K)
    (hinc : ∀ i a b, T[i]? = some a → T[i + 1]? = some b → a < b) (i : Nat) :
    ∀ j, i < j → j < T.length → T.getD i 0 < T.getD j 0 := by
  intro j
  induction j with
  | zero => intro h _; exact absurd h (Nat.not_lt_zero _)
  | succ j ih =>
    intro hij hj
    have hstep := hinc j _ _ (getD_of_getElem? T j 0 (by omega))
      (getD_of_getElem? T (j + 1) 0 hj)
    rcases Nat.eq_or_lt_of_le (Nat.lt_succ_iff.mp hij) with h | h
    · rw [h]; exact hstep
    · exact lt_trans (ih h (by omega)) hstep

theorem average_lt [LinearOrderedField K] (p : Nat) (hp1 : 1 ≤ p) (f : Nat → K) (c : K)
    (h : ∀ m, m < p → f m < c) : (Finset.sum (Finset.range p) f) / (p : K) < c := by
  have hpK : (0 : K) < (p : K) := Nat.cast_pos.mpr (by omega)
  rw [div_lt_iff₀ hpK]
  calc Finset.sum (Finset.range p) f
      < Finset.sum (Finset.range p) (fun _ => c) := by
        apply Finset.sum_lt_sum_of_nonempty
        · exact Finset.nonempty_range_iff.mpr (by omega)
        · intro m hm; exact h m (Finset.mem_range.mp hm)
    _ = c * (p : K) := by simp [mul_comm]

theorem lt_average [LinearOrderedField K] (p : Nat) (hp1 : 1 ≤ p) (f : Nat → K) (c : K)
    (h : ∀ m, m < p → c < f m) : c < (Finset.sum (Finset.range p) f) / (p : K) := by
  have hpK : (0 : K) < (p : K) := Nat.cast_pos.mpr (by omega)
  rw [lt_div_iff₀ hpK]
  calc c * (p : K) = Finset.sum (Finset.range p) (fun _ => c) := by simp [mul_comm]
    _ < Finset.sum (Finset.range p) f := by
        apply Finset.sum_lt_sum_of_nonempty
        · exact Finset.nonempty_range_iff.mpr (by omega)
        · intro m hm; exact h m (Finset.mem_range.mp hm)

theorem knotValue_lower [LinearOrderedField K] (T : List K) (p : Nat) (hp1 : 1 ≤ p)
    (hstrict : ∀ i j, i < j → j < T.length → T.getD i 0 < T.getD j 0)
    (h0 : T.getD 0 0 = 0) (k : Nat) (hk : k < T.length) :
    knotValue T p k ≤ T.getD k 0 ∧ (0 < k → knotValue T p k < T.getD k 0) := by
  unfold knotValue
  by_cases c1 : k ≤ p
  · rw [if_pos c1]
    have hpos : 0 < k → 0 < T.getD k 0 := fun hk0 => by
      have h := hstrict 0 k hk0 hk
      rw [h0] at h; exact h
    refine ⟨?_, hpos⟩
    rcases Nat.eq_zero_or_pos k with hz | hz
    · rw [hz, h0]
    · exact le_of_lt (hpos hz)
  · rw [if_neg c1, if_pos hk]
    have hlt := average_lt p hp1 (fun m => T.getD (k - p - 1 + (m + 1)) 0) (T.getD k 0)
      (fun m hm => hstrict _ k (by omega) hk)
    exact ⟨le_of_lt hlt, fun _ => hlt⟩

theorem knotValue_upper [LinearOrderedField K] (T : List K) (p : Nat) (hp1 : 1 ≤ p)
    (hstrict : ∀ i j, i < j → j < T.length → T.getD i 0 < T.getD j 0)
    (h1 : T.getD (T.length - 1) 0 = 1) (k : Nat) (hk : k < T.length) :
    T.getD k 0 ≤ knotValue T p (k + p + 1) ∧
      (k < T.length - 1 → T.getD k 0 < knotValue T p (k + p + 1)) := by
  unfold knotValue
  rw [if_neg (by omega)]
  by_cases c1 : k + p + 1 < T.length
  · rw [if_pos c1]
    have hlt := lt_average p hp1 (fun m => T.getD (k + p + 1 - p - 1 + (m + 1)) 0)
      (T.getD k 0) (fun m hm => hstrict k _ (by omega) (by omega))
    exact ⟨le_of_lt hlt, fun _ => hlt⟩
  · rw [if_neg c1]
    have hlt : k < T.length - 1 → T.getD k 0 < 1 := fun hkl => by
      have h := hstrict k (T.length - 1) hkl (by omega)
      rw [h1] at h; exact h
    refine ⟨?_, hlt⟩
    rcases Nat.eq_or_lt_of_le (Nat.le_sub_one_of_lt hk) with hz | hz
    · rw [hz, h1]
    · exact le_of_lt (hlt hz)

/-- C19: for a strictly increasing parameter sequence that starts at 0 and ends
at 1, and a degree `p` with `1 ≤ p ≤ n - 1`, the knot vector `U` returned by
`knotVectorUsingAveraging` satisfies `U[k] ≤ t[k] ≤ U[k+p+1]` for every `k < n`,
with both inequalities strict when `0 < k < n - 1`. -/
theorem knotVectorUsingAveraging_brackets [LinearOrderedField K] (T : List K) (p : Nat)
    (hinc : ∀ i a b, T[i]? = some a → T[i + 1]? = some b → a < b)
    (hfirst : T[0]? = some 0) (hlast : T[T.length - 1]? = some 1)
    (hp1 : 1 ≤ p) (hp : p ≤ T.length - 1) (hsz : T.length < 2 ^ 63) :
    ∃ U : List K, knotVectorUsingAveraging (T.map Dbl.finite) p = .ok (U.map Dbl.finite) ∧
      U.length = T.length + p + 1 ∧
      ∀ (k : Nat) tk, T[k]? = some tk →
        ∃ lower upper, U[k]? = some lower ∧ U[k + p + 1]? = some upper ∧
          lower ≤ tk ∧ tk ≤ upper ∧
          (0 < k → k < T.length - 1 → lower < tk ∧ tk < upper) := by
  have h0 : T.getD 0 0 = 0 := by rw [List.getD_eq_getElem?_getD, hfirst]; rfl
  have h1 : T.getD (T.length - 1) 0 = 1 := by rw [List.getD_eq_getElem?_getD, hlast]; rfl
  have hstrict : ∀ i j, i < j → j < T.length → T.getD i 0 < T.getD j 0 :=
    fun i j => strict_of_adjacent T hinc i j
  refine ⟨_, knot_finite_eq T p hp1 (by omega) hsz, by simp, ?_⟩
  intro k tk htk
  have hk : k < T.length := (List.getElem?_eq_some_iff.mp htk).1
  have hget : T.getD k 0 = tk := by rw [List.getD_eq_getElem?_getD, htk]; rfl
  obtain ⟨hl1, hl2⟩ := knotValue_lower T p hp1 hstrict h0 k hk
  obtain ⟨hu1, hu2⟩ := knotValue_upper T p hp1 hstrict h1 k hk
  rw [hget] at hl1 hl2 hu1 hu2
  exact ⟨_, _, knotValue_getElem? T p k (by omega), knotValue_getElem? T p (k + p + 1) (by omega),
    hl1, hu1, fun hk0 hkn => ⟨hl2 hk0, hu2 hkn⟩⟩

/-- C19 (instance): the parameters 0, 1/4, 1/3, 2/3, 1 and the degree 2. -/
theorem knotVectorUsingAveraging_brackets_witness :
    ∃ U : List ℚ,
      knotVectorUsingAveraging (([0, 1 / 4, 1 / 3, 2 / 3, 1] : List ℚ).map Dbl.finite) 2
        = .ok (U.map Dbl.finite) ∧
      U.length = 8 ∧
      ∀ (k : Nat) tk, ([0, 1 / 4, 1 / 3, 2 / 3, 1] : List ℚ)[k]? = some tk →
        ∃ lower upper, U[k]? = some lower ∧ U[k + 2 + 1]? = some upper ∧
          lower ≤ tk ∧ tk ≤ upper ∧
          (0 < k → k < 4 → lower < tk ∧ tk < upper) :=
  knotVectorUsingAveraging_brackets ([0, 1 / 4, 1 / 3, 2 / 3, 1] : List ℚ) 2
    (fun i a b ha hb => by
      have hi : i + 1 < 5 := by
        have := (List.getElem?_eq_some_iff.mp hb).1
        simpa using this
      have hi4 : i < 4 := by omega
      interval_cases i <;>
        simp only [List.getElem?_cons_zero, List.getElem?_cons_succ, Option.some.injEq] at ha hb <;>
        rw [← ha, ← hb] <;> norm_num)
    rfl rfl (by decide) (by decide) (by decide)

theorem centripetalIn_first_loop {D : Type} (A : Arithmetic D) (points : ControlPoints2D D)
    (n : Nat) (hx : points.x.length = n) (hy : points.y.length = n) (hn : 1 ≤ n)
    (hsz : n < 2 ^ 64) :
    ∃ d : List D,
      forLoop 0 (n - 1)
        (fun i (s : List D × D) =>
          (do
            let x1 ← load points.x (sizeAdd i 1)
            let x0 ← load points.x i
            let y1 ← load points.y (sizeAdd i 1)
            let y0 ← load points.y i
            let d ← store s.1 i
              (A.sqrt (A.add (A.square (A.sub x1 x0)) (A.square (A.sub y1 y0))))
            let di ← load d i
            pure (d, A.add s.2 (A.sqrt di)) : Except (Failure D) (List D × D)))
        (List.replicate (n - 1) A.zero, A.zero)
        = .ok (d, chordWeightSumIn A points (n - 1)) ∧
      d.length = n - 1 ∧ ∀ k, k < n - 1 → d[k]? = some (chordLengthIn A points k) := by
  obtain ⟨s, hs, hlen, hd, hsum⟩ := forLoop_invariant
    (fun i (s : List D × D) =>
          (do
            let x1 ← load points.x (sizeAdd i 1)
            let x0 ← load points.x i
            let y1 ← load points.y (sizeAdd i 1)
            let y0 ← load points.y i
            let d ← store s.1 i
              (A.sqrt (A.add (A.square (A.sub x1 x0)) (A.square (A.sub y1 y0))))
            let di ← load d i
            pure (d, A.add s.2 (A.sqrt di)) : Except (Failure D) (List D × D)))
    (fun i s => s.1.length = n - 1 ∧
      (∀ k, k < i → s.1[k]? = some (chordLengthIn A points k)) ∧
      s.2 = chordWeightSumIn A points i)
    0 (n - 1) (Nat.zero_le _) (List.replicate (n - 1) A.zero, A.zero)
    (by
      rintro i ⟨d, s⟩ - hi ⟨hlen, hd, hsum⟩
      simp only at hlen hd hsum
      have e1 : sizeAdd i 1 = i + 1 := sizeAdd_of_lt (by omega)
      have hx1 := getD_of_getElem? points.x (i + 1) A.zero (by omega)
      have hx0 := getD_of_getElem? points.x i A.zero (by omega)
      have hy1 := getD_of_getElem? points.y (i + 1) A.zero (by omega)
      have hy0 := getD_of_getElem? points.y i A.zero (by omega)
      refine ⟨(d.set i (chordLengthIn A points i),
        A.add s (A.sqrt (chordLengthIn A points i))), ?_, ?_, ?_, ?_⟩
      · simp only [e1, load_of_getElem? hx1, load_of_getElem? hx0, load_of_getElem? hy1,
          load_of_getElem? hy0, bind, bind_ok]
        rw [store_of_lt _ (by omega), bind_ok,
          load_of_getElem? (List.getElem?_set_self (by omega)), bind_ok]
        rfl
      · simpa using hlen
      · intro k hk
        simp only
        by_cases hki : k = i
        · subst hki; exact List.getElem?_set_self (by omega)
        · rw [List.getElem?_set_ne (by omega)]; exact hd k (by omega)
      · simp only [hsum, chordWeightSumIn])
    ⟨by simp, by intro k hk; omega, rfl⟩
  refine ⟨s.1, ?_, hlen, hd⟩
  rw [hs, ← hsum]

theorem centripetalIn_second_loop {D : Type} (A : Arithmetic D) (points : ControlPoints2D D)
    (n : Nat) (hn : 2 ≤ n) (hsz : n < 2 ^ 64) (d : List D) (S : D)
    (hS : S = chordWeightSumIn A points (points.x.length - 1))
    (hd : ∀ k, k < n - 1 → d[k]? = some (chordLengthIn A points k)) :
    forLoop 0 (n - 1)
      (fun i (t : List D) =>
        (do
          let ti ← load t i
          let di ← load d i
          store t (sizeAdd i 1) (A.add ti (A.div (A.sqrt di) S)) :
          Except (Failure D) (List D)))
      (((List.replicate n A.zero).set 0 A.zero).set (n - 1) A.one)
      = .ok ((List.range n).map (parameterAtIn A points)) := by
  obtain ⟨t, ht, hlen, hpar⟩ := forLoop_invariant
    (fun i (t : List D) =>
        (do
          let ti ← load t i
          let di ← load d i
          store t (sizeAdd i 1) (A.add ti (A.div (A.sqrt di) S)) :
          Except (Failure D) (List D)))
    (fun i t => t.length = n ∧ ∀ k, k ≤ i → t[k]? = some (parameterAtIn A points k))
    0 (n - 1) (Nat.zero_le _)
    (((List.replicate n A.zero).set 0 A.zero).set (n - 1) A.one)
    (by
      rintro i t - hi ⟨hlen, hpar⟩
      have e1 : sizeAdd i 1 = i + 1 := sizeAdd_of_lt (by omega)
      refine ⟨t.set (i + 1) (parameterAtIn A points (i + 1)), ?_, ?_, ?_⟩
      · simp only [e1, load_of_getElem? (hpar i (Nat.le_refl _)), load_of_getElem? (hd i hi),
          bind, bind_ok]
        rw [store_of_lt _ (by omega)]
        simp only [parameterAtIn, hS]
      · simpa using hlen
      · intro k hk
        by_cases hki : k = i + 1
        · subst hki; exact List.getElem?_set_self (by omega)
        · rw [List.getElem?_set_ne (by omega)]; exact hpar k (by omega))
    ⟨by simp, by
      intro k hk
      have hk0 : k = 0 := by omega
      subst hk0
      rw [List.getElem?_set_ne (by omega), List.getElem?_set_self (by simp; omega)]
      rfl⟩
  rw [ht]
  congr 1
  apply List.ext_getElem?
  intro k
  by_cases hk : k < n
  · rw [hpar k (by omega)]
    simp [List.getElem?_map, List.getElem?_range hk]
  · rw [List.getElem?_eq_none (by omega), List.getElem?_eq_none (by simp; omega)]

/-- For at least two points with coordinate sequences of equal length, the
estimator run in the arithmetic `A` returns the values of the recurrence
`parameterAtIn A`. -/
theorem centripetalIn_eq {D : Type} (A : Arithmetic D) (points : ControlPoints2D D)
    (n : Nat) (hx : points.x.length = n) (hy : points.y.length = n) (hn : 2 ≤ n)
    (hsz : n < 2 ^ 64) :
    centripetalParameterPositionsIn A points
      = .ok ((List.range n).map (parameterAtIn A points)) := by
  obtain ⟨d, h1, -, hd⟩ := centripetalIn_first_loop A points n hx hy (by omega) hsz
  have h2 := centripetalIn_second_loop A points n hn hsz d
    (chordWeightSumIn A points (n - 1)) (by rw [hx]) hd
  have e : sizeSub n 1 = n - 1 := sizeSub_of_le (by omega) hsz
  unfold centripetalParameterPositionsIn
  simp only [hx, e, bind]
  simp only [bind] at h1 h2
  rw [store_of_lt _ (by simp; omega), bind_ok, store_of_lt _ (by simp; omega), bind_ok, h1,
    bind_ok]
  simp only []
  rw [h2, bind_ok]
  rfl

theorem centripetalIn_single {D : Type} (A : Arithmetic D) (points : ControlPoints2D D)
    (hx : points.x.length = 1) :
    centripetalParameterPositionsIn A points = .ok [A.one] := by
  have e : sizeSub 1 1 = 0 := sizeSub_of_le (Nat.le_refl 1) (by norm_num)
  unfold centripetalParameterPositionsIn
  simp only [hx, e, bind]
  rw [store_of_lt _ (by simp), bind_ok, store_of_lt _ (by simp), bind_ok]
  rfl

theorem getD_map_finite_zero [Zero K] (T : List K) (i : Nat) :
    (T.map Dbl.finite).getD i (Dbl.finite 0) = Dbl.finite (T.getD i 0) := by
  rw [List.getD_eq_getElem?_getD, List.getD_eq_getElem?_getD, List.getElem?_map]
  cases T[i]? <;> rfl

theorem chordLengthIn_exact [Field K] [DecidableEq K] (sqrt : K → K)
    (points : ControlPoints2D K) (i : Nat) :
    chordLengthIn (exactArithmetic sqrt)
        ⟨points.x.map Dbl.finite, points.y.map Dbl.finite⟩ i
      = Dbl.finite (chordLength sqrt points i) := by
  unfold chordLengthIn chordLength
  simp only [exactArithmetic, getD_map_finite_zero, Dbl.add]

theorem chordWeightSumIn_exact [Field K] [DecidableEq K] (sqrt : K → K)
    (points : ControlPoints2D K) (m : Nat) :
    chordWeightSumIn (exactArithmetic sqrt)
        ⟨points.x.map Dbl.finite, points.y.map Dbl.finite⟩ m
      = Dbl.finite (chordWeightSum sqrt points m) := by
  induction m with
  | zero => simp [chordWeightSumIn, chordWeightSum, exactArithmetic]
  | succ m ih =>
    rw [chordWeightSumIn, ih, chordLengthIn_exact]
    simp only [exactArithmetic, Dbl.add, chordWeightSum, Finset.sum_range_succ, chordWeight]

theorem parameterAtIn_exact [Field K] [DecidableEq K] (sqrt : K → K)
    (points : ControlPoints2D K) (k : Nat) :
    parameterAtIn (exactArithmetic sqrt)
        ⟨points.x.map Dbl.finite, points.y.map Dbl.finite⟩ k
      = parameterAt sqrt points k := by
  induction k with
  | zero => rfl
  | succ k ih =>
    rw [parameterAtIn, ih, chordLengthIn_exact, chordWeightSumIn_exact]
    simp only [List.length_map]
    rfl

/-- The exact estimator is the estimator with the arithmetic as a parameter, run
in the exact arithmetic: for coordinate sequences of equal length `n ≥ 1`, both
return the same parameters. -/
theorem centripetalIn_exact [Field K] [DecidableEq K] (sqrt : K → K)
    (points : ControlPoints2D K) (hy : points.y.length = points.x.length)
    (hn : 1 ≤ points.x.length) (hsz : points.x.length < 2 ^ 64) :
    ∃ t : List (Dbl K), centripetalParameterPositions sqrt points = .ok t ∧
      centripetalParameterPositionsIn (exactArithmetic sqrt)
        ⟨points.x.map Dbl.finite, points.y.map Dbl.finite⟩ = .ok t := by
  by_cases h1 : points.x.length = 1
  · exact ⟨_, centripetal_single sqrt points h1,
      centripetalIn_single (exactArithmetic sqrt) _ (by simp [h1])⟩
  · refine ⟨_, centripetal_eq sqrt points _ rfl hy (by omega) hsz, ?_⟩
    rw [centripetalIn_eq (exactArithmetic sqrt) _ points.x.length (by simp) (by simp [hy])
      (by omega) hsz]
    congr 1
    apply List.map_congr_left
    intro k _
    exact parameterAtIn_exact sqrt points k

end Further

/-! ## The estimator in binary64 arithmetic

The rounding of a few exact results, and the run of
`centripetalParameterPositionsIn binary64` on two point sequences with a
coordinate difference of `2 ^ (-600)`, whose square is below the smallest
positive binary64 number and rounds to 0. -/

section MachineArithmetic

namespace Binary64

/-- An integer is rounded to itself. -/
theorem roundHalfEven_intCast (n : Int) : roundHalfEven (n : ℚ) = n := by
  unfold roundHalfEven
  rw [Int.floor_intCast, sub_self, if_pos (by norm_num)]

/-- The number 0 is a binary64 number. -/
theorem roundNearest_zero : roundNearest 0 = finite 0 := by
  have h : roundHalfEven ((0 : ℚ) / 2 ^ ulpExponent 0) = 0 := by
    rw [zero_div]
    exact_mod_cast roundHalfEven_intCast 0
  unfold roundNearest
  simp only [h]
  norm_num

/-- The spacing of the binary64 numbers at a power of two. -/
theorem ulpExponent_two_zpow (k : Int) :
    ulpExponent ((2 : ℚ) ^ k) = max (k - 52) (-1074) := by
  have hpos : (0 : ℚ) < 2 ^ k := zpow_pos (by norm_num) k
  unfold ulpExponent
  have hlog : Int.log 2 ((2 : ℚ) ^ k) = k := by
    exact_mod_cast @Int.log_zpow ℚ _ _ 2 (by norm_num) k
  rw [abs_of_pos hpos, hlog]

theorem two_pow_1024_eq : (2 : ℚ) ^ 1024 = 2 ^ (1024 : Int) := by
  rw [← zpow_natCast]
  rfl

/-- A power of two with an exponent from -1022 to 1023 is a binary64 number:
rounding leaves it unchanged. -/
theorem roundNearest_two_zpow (k : Int) (h1 : -1022 ≤ k) (h2 : k ≤ 1023) :
    roundNearest ((2 : ℚ) ^ k) = finite ((2 : ℚ) ^ k) := by
  have hpos : (0 : ℚ) < 2 ^ k := zpow_pos (by norm_num) k
  have he : ulpExponent ((2 : ℚ) ^ k) = k - 52 := by
    rw [ulpExponent_two_zpow]
    omega
  have hq : (2 : ℚ) ^ k / 2 ^ (k - 52) = ((2 ^ 52 : Int) : ℚ) := by
    rw [← zpow_sub₀ (by norm_num : (2 : ℚ) ≠ 0)]
    have : k - (k - 52) = 52 := by omega
    rw [this]
    norm_num
  have hr : ((2 ^ 52 : Int) : ℚ) * 2 ^ (k - 52) = 2 ^ k := by
    have : ((2 ^ 52 : Int) : ℚ) = (2 : ℚ) ^ (52 : Int) := by norm_num
    rw [this, ← zpow_add₀ (by norm_num : (2 : ℚ) ≠ 0)]
    congr 1
    omega
  unfold roundNearest
  simp only [he, hq, roundHalfEven_intCast, hr]
  have hlt : (2 : ℚ) ^ k < 2 ^ 1024 := by
    rw [two_pow_1024_eq]
    exact zpow_lt_zpow_right₀ (by norm_num) (by omega)
  rw [if_neg (not_le.mpr hlt), if_neg]
  have : (-(2 : ℚ) ^ 1024) < 0 := neg_neg_of_pos (pow_pos (by norm_num) 1024)
  exact not_le.mpr (lt_trans this hpos)

/-- Underflow: a power of two with an exponent below -1075 is less than half
the smallest positive binary64 number `2 ^ (-1074)` and rounds to 0. -/
theorem roundNearest_two_zpow_underflow (k : Int) (h : k < -1075) :
    roundNearest ((2 : ℚ) ^ k) = finite 0 := by
  have he : ulpExponent ((2 : ℚ) ^ k) = -1074 := by
    rw [ulpExponent_two_zpow]
    omega
  have hq : (2 : ℚ) ^ k / 2 ^ (-1074 : Int) = 2 ^ (k + 1074) := by
    rw [← zpow_sub₀ (by norm_num : (2 : ℚ) ≠ 0), sub_neg_eq_add]
  have hpos : (0 : ℚ) < 2 ^ (k + 1074) := zpow_pos (by norm_num) _
  have hle : (2 : ℚ) ^ (k + 1074) ≤ 2 ^ (-2 : Int) :=
    zpow_le_zpow_right₀ (by norm_num) (by omega)
  have hquarter : (2 : ℚ) ^ (-2 : Int) = 1 / 4 := by norm_num
  rw [hquarter] at hle
  have hfloor : ⌊(2 : ℚ) ^ (k + 1074)⌋ = 0 := by
    rw [Int.floor_eq_zero_iff]
    exact ⟨le_of_lt hpos, by linarith⟩
  have hround : roundHalfEven ((2 : ℚ) ^ (k + 1074)) = 0 := by
    unfold roundHalfEven
    rw [hfloor, if_pos]
    rw [Int.cast_zero, sub_zero]
    linarith
  unfold roundNearest
  simp only [he, hq, hround, Int.cast_zero, zero_mul]
  rw [if_neg, if_neg]
  · exact not_le.mpr (neg_neg_of_pos (pow_pos (by norm_num) 1024))
  · exact not_le.mpr (pow_pos (by norm_num) 1024)

theorem roundNearest_one : roundNearest 1 = finite 1 := by
  have h := roundNearest_two_zpow 0 (by norm_num) (by norm_num)
  rwa [zpow_zero] at h

theorem roundNearest_two : roundNearest 2 = finite 2 := by
  have h := roundNearest_two_zpow 1 (by norm_num) (by norm_num)
  rwa [zpow_one] at h

theorem roundNearest_half : roundNearest (1 / 2) = finite (1 / 2) := by
  have h := roundNearest_two_zpow (-1) (by norm_num) (by norm_num)
  have e : (2 : ℚ) ^ (-1 : Int) = 1 / 2 := by norm_num
  rwa [e] at h

/-- The rounded square root of 0 is 0. -/
theorem roundSqrt_zero : roundSqrt 0 = 0 := by
  unfold roundSqrt
  simp

/-- The rounded square root of 1 is 1. -/
theorem roundSqrt_one : roundSqrt 1 = 1 := by
  have hlog : Int.log 2 (1 : ℚ) = 0 := Int.log_one_right 2
  have he : max (Int.log 2 (1 : ℚ) / 2 - 52) (-1074) = -52 := by
    rw [hlog]
    norm_num
  have hs : (1 : ℚ) / 4 ^ (-52 : Int) = (((2 ^ 52) ^ 2 : Nat) : ℚ) := by
    norm_num
  have hm : Nat.sqrt ((2 ^ 52) ^ 2) = 2 ^ 52 := Nat.sqrt_eq' _
  unfold roundSqrt
  simp only [he, hs, Nat.floor_natCast, hm]
  rw [if_pos (by norm_num)]
  norm_num

theorem sub_finite (a b : ℚ) : sub (finite a) (finite b) = roundNearest (a - b) := by
  rw [sub_eq_add_neg]
  rfl

theorem add_finite (a b : ℚ) : add (finite a) (finite b) = roundNearest (a + b) := rfl

theorem square_finite (a : ℚ) : square (finite a) = roundNearest (a * a) := rfl

theorem sqrt_finite (a : ℚ) (h : 0 ≤ a) : sqrt (finite a) = finite (roundSqrt a) := by
  show (if a < 0 then nan else finite (roundSqrt a)) = _
  rw [if_neg (not_lt.mpr h)]

theorem div_finite (a b : ℚ) (h : b ≠ 0) :
    div (finite a) (finite b) = roundNearest (a / b) := by
  show (if b = 0 then (if a = 0 then nan else if 0 < a then posInf else negInf)
    else roundNearest (a / b)) = _
  rw [if_neg h]

end Binary64

open Binary64

theorem map_range_four {α : Type} (f : Nat → α) :
    (List.range 4).map f = [f 0, f 1, f 2, f 3] := rfl

/-- The chord length of the binary64 estimator at finite coordinates. -/
theorem chordLengthIn_binary64_finite (points : ControlPoints2D Binary64) (i : Nat)
    (a b c d : ℚ)
    (h0 : points.x.getD i (finite 0) = finite a)
    (h1 : points.x.getD (i + 1) (finite 0) = finite b)
    (h2 : points.y.getD i (finite 0) = finite c)
    (h3 : points.y.getD (i + 1) (finite 0) = finite d) :
    chordLengthIn binary64 points i
      = Binary64.sqrt (Binary64.add (Binary64.square (roundNearest (b - a)))
          (Binary64.square (roundNearest (d - c)))) := by
  show Binary64.sqrt (Binary64.add
    (Binary64.square (Binary64.sub (points.x.getD (i + 1) (finite 0))
      (points.x.getD i (finite 0))))
    (Binary64.square (Binary64.sub (points.y.getD (i + 1) (finite 0))
      (points.y.getD i (finite 0))))) = _
  rw [h0, h1, h2, h3, sub_finite, sub_finite]

theorem sqrt_add_square_one_zero :
    Binary64.sqrt (Binary64.add (Binary64.square (finite 1)) (Binary64.square (finite 0)))
      = finite 1 := by
  rw [square_finite, square_finite, mul_one, mul_zero, roundNearest_one, roundNearest_zero,
    add_finite, add_zero, roundNearest_one, sqrt_finite 1 (by norm_num), roundSqrt_one]

theorem sqrt_add_square_underflow (u v : ℚ) (hu : roundNearest (u * u) = finite 0)
    (hv : roundNearest (v * v) = finite 0) :
    Binary64.sqrt (Binary64.add (Binary64.square (finite u)) (Binary64.square (finite v)))
      = finite 0 := by
  rw [square_finite, square_finite, hu, hv, add_finite, add_zero, roundNearest_zero,
    sqrt_finite 0 (le_refl 0), roundSqrt_zero]

/-- One round of the first loop of the binary64 estimator. -/
theorem chordWeightSumIn_binary64_succ (points : ControlPoints2D Binary64) (m : Nat)
    (s d : ℚ) (hs : chordWeightSumIn binary64 points m = finite s)
    (hd : chordLengthIn binary64 points m = finite d) (hd0 : 0 ≤ d) :
    chordWeightSumIn binary64 points (m + 1) = roundNearest (s + roundSqrt d) := by
  show Binary64.add (chordWeightSumIn binary64 points m)
    (Binary64.sqrt (chordLengthIn binary64 points m)) = _
  rw [hs, hd, sqrt_finite d hd0, add_finite]

/-- One round of the second loop of the binary64 estimator. -/
theorem parameterAtIn_binary64_succ (points : ControlPoints2D Binary64) (i m : Nat)
    (a d : ℚ) (S : Binary64) (hm : points.x.length - 1 = m)
    (ha : parameterAtIn binary64 points i = finite a)
    (hd : chordLengthIn binary64 points i = finite d) (hd0 : 0 ≤ d)
    (hS : chordWeightSumIn binary64 points m = S) :
    parameterAtIn binary64 points (i + 1)
      = Binary64.add (finite a) (Binary64.div (finite (roundSqrt d)) S) := by
  show Binary64.add (parameterAtIn binary64 points i)
    (Binary64.div (Binary64.sqrt (chordLengthIn binary64 points i))
      (chordWeightSumIn binary64 points (points.x.length - 1))) = _
  rw [hm, ha, hd, sqrt_finite d hd0, hS]

/-- The binary64 parameters of (0,0), (1,0), (1,e), (2,e) when `e` is a binary64
number whose square rounds to 0: the chord weights are 1, 0, 1. -/
theorem parameterAtIn_binary64_merged (e : ℚ) (he : roundNearest e = finite e)
    (hee : roundNearest (e * e) = finite 0) :
    (List.range 4).map (parameterAtIn binary64
        ⟨[finite 0, finite 1, finite 1, finite 2], [finite 0, finite 0, finite e, finite e]⟩)
      = [finite 0, finite (1 / 2), finite (1 / 2), finite 1] := by
  generalize hp : (⟨[finite 0, finite 1, finite 1, finite 2],
    [finite 0, finite 0, finite e, finite e]⟩ : ControlPoints2D Binary64) = points
  have x0 : points.x.getD 0 (finite 0) = finite 0 := by rw [← hp]; rfl
  have x1 : points.x.getD 1 (finite 0) = finite 1 := by rw [← hp]; rfl
  have x2 : points.x.getD 2 (finite 0) = finite 1 := by rw [← hp]; rfl
  have x3 : points.x.getD 3 (finite 0) = finite 2 := by rw [← hp]; rfl
  have y0 : points.y.getD 0 (finite 0) = finite 0 := by rw [← hp]; rfl
  have y1 : points.y.getD 1 (finite 0) = finite 0 := by rw [← hp]; rfl
  have y2 : points.y.getD 2 (finite 0) = finite e := by rw [← hp]; rfl
  have y3 : points.y.getD 3 (finite 0) = finite e := by rw [← hp]; rfl
  have hm : points.x.length - 1 = 3 := by rw [← hp]; rfl
  have z : roundNearest (0 * 0) = finite 0 := by rw [mul_zero, roundNearest_zero]
  have c0 : chordLengthIn binary64 points 0 = finite 1 := by
    rw [chordLengthIn_binary64_finite points 0 0 1 0 0 x0 x1 y0 y1, sub_zero, sub_zero,
      roundNearest_one, roundNearest_zero, sqrt_add_square_one_zero]
  have c1 : chordLengthIn binary64 points 1 = finite 0 := by
    rw [chordLengthIn_binary64_finite points 1 1 1 0 e x1 x2 y1 y2, sub_self, sub_zero,
      roundNearest_zero, he, sqrt_add_square_underflow 0 e z hee]
  have c2 : chordLengthIn binary64 points 2 = finite 1 := by
    have h21 : (2 : ℚ) - 1 = 1 := by norm_num
    rw [chordLengthIn_binary64_finite points 2 1 2 e e x2 x3 y2 y3, sub_self, h21,
      roundNearest_one, roundNearest_zero, sqrt_add_square_one_zero]
  have w1 : chordWeightSumIn binary64 points 1 = finite 1 := by
    rw [chordWeightSumIn_binary64_succ points 0 0 1 rfl c0 (by norm_num), roundSqrt_one,
      zero_add, roundNearest_one]
  have w2 : chordWeightSumIn binary64 points 2 = finite 1 := by
    rw [chordWeightSumIn_binary64_succ points 1 1 0 w1 c1 (le_refl 0), roundSqrt_zero,
      add_zero, roundNearest_one]
  have w3 : chordWeightSumIn binary64 points 3 = finite 2 := by
    rw [chordWeightSumIn_binary64_succ points 2 1 1 w2 c2 (by norm_num), roundSqrt_one,
      one_add_one_eq_two, roundNearest_two]
  have t1 : parameterAtIn binary64 points 1 = finite (1 / 2) := by
    rw [parameterAtIn_binary64_succ points 0 3 0 1 _ hm rfl c0 (by norm_num) w3,
      roundSqrt_one, div_finite 1 2 (by norm_num), roundNearest_half, add_finite, zero_add,
      roundNearest_half]
  have t2 : parameterAtIn binary64 points 2 = finite (1 / 2) := by
    rw [parameterAtIn_binary64_succ points 1 3 (1 / 2) 0 _ hm t1 c1 (le_refl 0) w3,
      roundSqrt_zero, div_finite 0 2 (by norm_num), zero_div, roundNearest_zero, add_finite,
      add_zero, roundNearest_half]
  have t3 : parameterAtIn binary64 points 3 = finite 1 := by
    rw [parameterAtIn_binary64_succ points 2 3 (1 / 2) 1 _ hm t2 c2 (by norm_num) w3,
      roundSqrt_one, div_finite 1 2 (by norm_num), roundNearest_half, add_finite, add_halves,
      roundNearest_one]
  rw [map_range_four, t1, t2, t3]
  rfl

/-- C18 (counterexample): in binary64 arithmetic, for the points (0,0), (1,0),
(1, 2^-600), (2, 2^-600), all binary64 numbers, points 1 and 2 differ; the
square of `2^-600` underflows to 0, so the chord weight between them is 0 and
the estimator returns `[0, 1/2, 1/2, 1]`: `t[1] < t[2]` does not hold. -/
theorem centripetalParameterPositionsIn_underflow_merges :
    roundNearest ((2 : ℚ) ^ (-600 : Int)) = finite ((2 : ℚ) ^ (-600 : Int))
    ∧ (0 : ℚ) ≠ 2 ^ (-600 : Int)
    ∧ centripetalParameterPositionsIn binary64
        ⟨[finite 0, finite 1, finite 1, finite 2],
          [finite 0, finite 0, finite ((2 : ℚ) ^ (-600 : Int)),
            finite ((2 : ℚ) ^ (-600 : Int))]⟩
      = .ok [finite 0, finite (1 / 2), finite (1 / 2), finite 1]
    ∧ ¬ ((1 / 2 : ℚ) < 1 / 2) := by
  have he := roundNearest_two_zpow (-600) (by norm_num) (by norm_num)
  have hee : roundNearest ((2 : ℚ) ^ (-600 : Int) * (2 : ℚ) ^ (-600 : Int)) = finite 0 := by
    rw [← zpow_add₀ (by norm_num : (2 : ℚ) ≠ 0)]
    exact roundNearest_two_zpow_underflow _ (by norm_num)
  refine ⟨he, (zpow_ne_zero _ (by norm_num)).symm, ?_, lt_irrefl _⟩
  refine (centripetalIn_eq binary64 _ 4 ?_ ?_ (by norm_num) (by norm_num)).trans
    (congrArg Except.ok (parameterAtIn_binary64_merged _ he hee))
  · rfl
  · rfl

end MachineArithmetic

end SplineKernel
